import Mathlib

/-!
# L-system renderer (lindenmayer.cc): a shallow embedding and its properties

The development follows the three parts of the program:

* the grammar expander (apply_rules and the expansion loop of render_l_system),
* the pixel buffer and the integer line rasteriser (Image),
* the turtle, its two segment sinks and the path interpreter (run_turtle).

Conventions of the embedding.

* A std::string is a list of characters; a std::map from char to std::string is an association
  list read with Rules.find (first entry with the key: the keys of a map are unique).
* An int is an Int. Signed overflow is undefined in C++, so the statements are about runs whose
  int values stay in range; the conversion from int to size_t is toSizeT (reduction modulo 2^64).
* An unsigned char is a Nat; the program only stores and copies these bytes.
* A float is a value of an arbitrary type F, with the primitive operations the program uses
  collected in FloatOps F. Nothing is assumed about them, so a statement proved for all ops
  holds for IEEE arithmetic in particular. Comparisons of coordinates use a linear order on F
  (finite floats, no NaN).
* A virtual TurtleInterface is a sink state σ together with its line function.
* Reading stack.top() of an empty std::stack is undefined behaviour; the model of the
  interpreter returns the error UB.top_of_empty_stack at that point.
-/

namespace LSystem

/-! ## Grammar expander -/

/-- The rule set, a map from a symbol to its replacement string. -/
abbrev Rules := List (Char × List Char)

/-- Lookup rules.find(c): the replacement stored under key c, if any. -/
def Rules.find (rules : Rules) (c : Char) : Option (List Char) :=
  match rules with
  | [] => none
  | (k, v) :: rest => if k = c then some v else Rules.find rest c

/-- One generation of rewriting: apply_rules (lines 263-279). The loop scans the string from left
to right, appending to result the replacement of the symbol when rules.find succeeds and the
symbol itself otherwise; the string is then overwritten with result. -/
def apply_rules (rules : Rules) (s : List Char) : List Char :=
  s.foldl
    (fun result c =>
      match rules.find c with
      | some replacement => result ++ replacement
      | none => result ++ [c])
    []

/-- The expansion loop of render_l_system (lines 284-289), with n iterations left to run:
each iteration is one call of apply_rules on current_string. -/
def expand_loop (rules : Rules) : Nat → List Char → List Char
  | 0, current_string => current_string
  | n + 1, current_string => expand_loop rules n (apply_rules rules current_string)

/-- The expanded string computed by render_l_system for the int iterations: the loop
for (int i = 0; i < iterations; ++i) runs its body iterations times, and not at all when
iterations is zero or negative. -/
def expand (rules : Rules) (iterations : Int) (s : List Char) : List Char :=
  expand_loop rules iterations.toNat s

/-- The default grammar of main: F becomes FF, X becomes F-[[X]+X]+F[+FX]-X. -/
def default_rules : Rules :=
  [('F', "FF".toList), ('X', "F-[[X]+X]+F[+FX]-X".toList)]

/-! ## Pixel buffer -/

/-- A colour: three unsigned char channels. -/
structure RGB where
  r : Nat := 0
  g : Nat := 0
  b : Nat := 0
  deriving DecidableEq

/-- The pixel buffer: int width, height and channels, and the byte vector. -/
structure Image where
  width : Int := 0
  height : Int := 0
  channels : Int := 0
  pixels : List Nat := []
  deriving DecidableEq

/-- Conversion of an int to size_t (64 bits): the value modulo 2^64. -/
def toSizeT (i : Int) : Nat := (i % 2 ^ 64).toNat

/-- The constructor Image(w, h, c) (lines 59-63): w * h * c bytes, all zero. The model follows
the source where w * h * c is a non-negative int, which is where the statements below use it;
for a negative or overflowing product the source fails in pixels.resize, which is not
modelled. -/
def Image.create (w h c : Int) : Image :=
  { width := w, height := h, channels := c, pixels := List.replicate (toSizeT (w * h * c)) 0 }

/-- Bounds-checked read safe_get (lines 74-79). -/
def Image.safe_get (img : Image) (index : Nat) : Nat :=
  if index ≥ img.pixels.length then 0 else img.pixels.getD index 0

/-- Bounds-checked write safe_set (lines 81-86): nothing happens when the index is at or past
the end of the byte vector. -/
def Image.safe_set (img : Image) (index : Nat) (c : Nat) : Image :=
  if index ≥ img.pixels.length then img else { img with pixels := img.pixels.set index c }

/-- Pixel write set(x, y, c) (lines 97-106): the int index (y * width + x) * channels is
computed first, then one bounds-checked byte write per channel, each index converted to
size_t at the call. -/
def Image.set (img : Image) (x y : Int) (c : RGB) : Image :=
  let index := (y * img.width + x) * img.channels
  let img1 := if img.channels > 0 then img.safe_set (toSizeT index) c.r else img
  let img2 := if img.channels > 1 then img1.safe_set (toSizeT (index + 1)) c.g else img1
  if img.channels > 2 then img2.safe_set (toSizeT (index + 2)) c.b else img2

/-- The while (true) loop of Image::line (lines 117-138) with an iteration budget: none when the
budget runs out before the break. The loop state is the image and the ints x1, y1, err; dx, dy,
sx, sy, x2, y2 and the colour are fixed. Besides the image, the result lists the points on which
set was called, in call order. -/
def Image.line_loop (dx dy sx sy x2 y2 : Int) (c : RGB) :
    Nat → Image → Int → Int → Int → Option (Image × List (Int × Int))
  | 0, _, _, _, _ => none
  | fuel + 1, img, x1, y1, err =>
    let img1 := img.set x1 y1 c
    if x1 = x2 ∧ y1 = y2 then
      some (img1, [(x1, y1)])
    else
      let e2 := 2 * err
      let err1 := if e2 > -dy then err - dy else err
      let x1n := if e2 > -dy then x1 + sx else x1
      let err2 := if e2 < dx then err1 + dx else err1
      let y1n := if e2 < dx then y1 + sy else y1
      match Image.line_loop dx dy sx sy x2 y2 c fuel img1 x1n y1n err2 with
      | none => none
      | some (img2, pts) => some (img2, (x1, y1) :: pts)

/-- The rasteriser Image::line (lines 108-139), Bresenham's algorithm, run with an iteration
budget for its loop. -/
def Image.line (fuel : Nat) (img : Image) (x1 y1 x2 y2 : Int) (c : RGB) :
    Option (Image × List (Int × Int)) :=
  let dx : Int := (x2 - x1).natAbs
  let dy : Int := (y2 - y1).natAbs
  let sx : Int := if x1 < x2 then 1 else -1
  let sy : Int := if y1 < y2 then 1 else -1
  let err := dx - dy
  Image.line_loop dx dy sx sy x2 y2 c fuel img x1 y1 err

/-! ## Turtle -/

/-- The float primitives used by the program. -/
structure FloatOps (F : Type) where
  /-- float addition -/
  add : F → F → F
  /-- float subtraction -/
  sub : F → F → F
  /-- float multiplication -/
  mul : F → F → F
  /-- negation -/
  neg : F → F
  /-- the library function cosf -/
  cosf : F → F
  /-- the library function sinf -/
  sinf : F → F
  /-- the product a * DEG2RAD, as passed to cosf and sinf -/
  mulDeg2Rad : F → F
  /-- conversion of an int to float; also the literals 0.f and 90.f -/
  ofInt : Int → F
  /-- conversion of a float to int (truncation) -/
  toInt : F → Int
  /-- the constant FLT_MAX -/
  FLT_MAX : F

/-- A 2D point. -/
structure Vec2 (F : Type) where
  x : F
  y : F
  deriving DecidableEq

/-- The turtle state: position, initially (0, 0), and heading angle, initially 90. -/
structure State (F : Type) where
  position : Vec2 F
  angle : F
  deriving DecidableEq

/-- The turtle. Its interface pointer is fixed at construction and shared by every copy, so
the sink is passed alongside instead of being stored. -/
structure Turtle (F : Type) where
  state : State F
  deriving DecidableEq

/-- The turtle built by Turtle(interface): default-initialised state. -/
def Turtle.init {F : Type} (ops : FloatOps F) : Turtle F :=
  { state := { position := { x := ops.ofInt 0, y := ops.ofInt 0 }, angle := ops.ofInt 90 } }

/-- Turtle::forward (lines 162-168): moves the position and calls interface->line with the old
and the new position. -/
def Turtle.forward {F σ : Type} (ops : FloatOps F) (line : σ → Vec2 F → Vec2 F → σ)
    (t : Turtle F) (sink : σ) (distance : F) : Turtle F × σ :=
  let start := t.state.position
  let px := ops.add t.state.position.x (ops.mul distance (ops.cosf (ops.mulDeg2Rad t.state.angle)))
  let py := ops.sub t.state.position.y (ops.mul distance (ops.sinf (ops.mulDeg2Rad t.state.angle)))
  let t1 : Turtle F := { state := { position := { x := px, y := py }, angle := t.state.angle } }
  (t1, line sink start t1.state.position)

/-- Turtle::right (lines 170-173). -/
def Turtle.right {F : Type} (ops : FloatOps F) (t : Turtle F) (theta : F) : Turtle F :=
  { state := { t.state with angle := ops.add t.state.angle theta } }

/-- Turtle::left (lines 175-178). -/
def Turtle.left {F : Type} (ops : FloatOps F) (t : Turtle F) (theta : F) : Turtle F :=
  { state := { t.state with angle := ops.sub t.state.angle theta } }

/-! ## Segment sinks -/

/-- The bounding-box collector TurtleTestInterface: the running maximum and minimum points. -/
structure TurtleTestInterface (F : Type) where
  max_point : Vec2 F
  min_point : Vec2 F
  deriving DecidableEq

/-- The constructor of TurtleTestInterface (lines 184-190): max at -FLT_MAX, min at FLT_MAX. -/
def TurtleTestInterface.init {F : Type} (ops : FloatOps F) : TurtleTestInterface F :=
  { max_point := { x := ops.neg ops.FLT_MAX, y := ops.neg ops.FLT_MAX },
    min_point := { x := ops.FLT_MAX, y := ops.FLT_MAX } }

/-- The assignment min_point.x = v. -/
def TurtleTestInterface.set_min_x {F : Type} (b : TurtleTestInterface F) (v : F) :
    TurtleTestInterface F :=
  { max_point := b.max_point, min_point := { x := v, y := b.min_point.y } }

/-- The assignment min_point.y = v. -/
def TurtleTestInterface.set_min_y {F : Type} (b : TurtleTestInterface F) (v : F) :
    TurtleTestInterface F :=
  { max_point := b.max_point, min_point := { x := b.min_point.x, y := v } }

/-- The assignment max_point.x = v. -/
def TurtleTestInterface.set_max_x {F : Type} (b : TurtleTestInterface F) (v : F) :
    TurtleTestInterface F :=
  { max_point := { x := v, y := b.max_point.y }, min_point := b.min_point }

/-- The assignment max_point.y = v. -/
def TurtleTestInterface.set_max_y {F : Type} (b : TurtleTestInterface F) (v : F) :
    TurtleTestInterface F :=
  { max_point := { x := b.max_point.x, y := v }, min_point := b.min_point }

/-- TurtleTestInterface::line (lines 191-209): eight conditional assignments in sequence, four
for the start point and four for the end point. -/
def TurtleTestInterface.line {F : Type} [LinearOrder F] (b : TurtleTestInterface F)
    (start end_ : Vec2 F) : TurtleTestInterface F :=
  let b1 := if start.x < b.min_point.x then b.set_min_x start.x else b
  let b2 := if start.y < b1.min_point.y then b1.set_min_y start.y else b1
  let b3 := if start.x > b2.max_point.x then b2.set_max_x start.x else b2
  let b4 := if start.y > b3.max_point.y then b3.set_max_y start.y else b3
  let b5 := if end_.x < b4.min_point.x then b4.set_min_x end_.x else b4
  let b6 := if end_.y < b5.min_point.y then b5.set_min_y end_.y else b5
  let b7 := if end_.x > b6.max_point.x then b6.set_max_x end_.x else b6
  if end_.y > b7.max_point.y then b7.set_max_y end_.y else b7

/-- The collector after a sequence of segments, fed in order from the freshly constructed one. -/
def TurtleTestInterface.feed {F : Type} [LinearOrder F] (ops : FloatOps F)
    (segs : List (Vec2 F × Vec2 F)) : TurtleTestInterface F :=
  segs.foldl (fun b seg => b.line seg.1 seg.2) (TurtleTestInterface.init ops)

/-- The rasterising sink TurtleDrawerInterface: the image it draws into (held by reference in
the source, threaded through here), the colour, the offset and the flip flag. -/
structure TurtleDrawerInterface (F : Type) where
  image : Image
  color : RGB
  offset : Vec2 F
  flip : Bool := false

/-- TurtleDrawerInterface::line (lines 221-228): the float coordinates are translated (and
mirrored under flip, with image.width converted to float), converted to int at the call of
image.line, and the segment is rasterised. The budget is that of the loop of Image.line. -/
def TurtleDrawerInterface.line {F : Type} (ops : FloatOps F) (fuel : Nat)
    (d : TurtleDrawerInterface F) (start end_ : Vec2 F) : Option (TurtleDrawerInterface F) :=
  let r :=
    if d.flip then
      d.image.line fuel
        (ops.toInt (ops.sub (ops.ofInt d.image.width) (ops.add d.offset.x start.x)))
        (ops.toInt (ops.add d.offset.y start.y))
        (ops.toInt (ops.sub (ops.ofInt d.image.width) (ops.add d.offset.x end_.x)))
        (ops.toInt (ops.add d.offset.y end_.y))
        d.color
    else
      d.image.line fuel
        (ops.toInt (ops.add d.offset.x start.x))
        (ops.toInt (ops.add d.offset.y start.y))
        (ops.toInt (ops.add d.offset.x end_.x))
        (ops.toInt (ops.add d.offset.y end_.y))
        d.color
  match r with
  | none => none
  | some (img, _) => some { d with image := img }

/-! ## Path interpreter -/

/-- Undefined behaviour reachable in run_turtle. -/
inductive UB where
  /-- stack.top() was called on an empty stack (line 257) -/
  | top_of_empty_stack
  deriving DecidableEq

/-- The state of the loop of run_turtle: the turtle, the stack of saved turtles (top first) and
the sink behind the interface pointer. -/
structure Interp (F σ : Type) where
  turtle : Turtle F
  stack : List (Turtle F)
  sink : σ

/-- The body of the for loop of run_turtle (lines 239-259) for one character. For the pop
command the source calls stack.top() and then stack.pop() without testing stack.empty(). -/
def run_turtle_step {F σ : Type} (ops : FloatOps F) (line : σ → Vec2 F → Vec2 F → σ)
    (angle length : F) (st : Interp F σ) (c : Char) : Except UB (Interp F σ) :=
  if c = 'F' then
    let r := st.turtle.forward ops line st.sink length
    .ok { st with turtle := r.1, sink := r.2 }
  else if c = '+' then
    .ok { st with turtle := st.turtle.right ops angle }
  else if c = '-' then
    .ok { st with turtle := st.turtle.left ops angle }
  else if c = '[' then
    .ok { st with stack := st.turtle :: st.stack }
  else if c = ']' then
    match st.stack with
    | [] => .error UB.top_of_empty_stack
    | top :: rest => .ok { st with turtle := top, stack := rest }
  else
    .ok st

/-- The for loop of run_turtle over the characters of current_string. -/
def run_turtle_loop {F σ : Type} (ops : FloatOps F) (line : σ → Vec2 F → Vec2 F → σ)
    (angle length : F) : List Char → Interp F σ → Except UB (Interp F σ)
  | [], st => .ok st
  | c :: rest, st =>
    match run_turtle_step ops line angle length st c with
    | .error e => .error e
    | .ok st1 => run_turtle_loop ops line angle length rest st1

/-- The interpreter run_turtle (lines 231-261): a fresh turtle and an empty stack, then the loop.
The parameters rules and iterations of the source are not used by its body and are left out.
The result is the loop state at the end; the source returns nothing and its effect is the
sink. -/
def run_turtle {F σ : Type} (ops : FloatOps F) (line : σ → Vec2 F → Vec2 F → σ) (sink : σ)
    (current_string : List Char) (angle length : F) : Except UB (Interp F σ) :=
  run_turtle_loop ops line angle length current_string
    { turtle := Turtle.init ops, stack := [], sink := sink }

/-- The sink that records the segments it receives, in order. -/
def record_line {F : Type} (segs : List (Vec2 F × Vec2 F)) (start end_ : Vec2 F) :
    List (Vec2 F × Vec2 F) :=
  segs ++ [(start, end_)]

/-! ## Top-level rendering -/

/-- The float primitives of render_l_system: those of the turtle, and the two library functions
applied to the extent of the bounding box. -/
structure RenderOps (F : Type) extends FloatOps F where
  /-- the library function ceilf -/
  ceilf : F → F
  /-- the library function fabs -/
  fabs : F → F

/-- The drawer as the sink of run_turtle: each segment is rasterised with the given budget for
the loop of Image.line; none records that a budget ran out. -/
def TurtleDrawerInterface.line_sink {F : Type} (ops : FloatOps F) (fuel : Nat)
    (d : Option (TurtleDrawerInterface F)) (start end_ : Vec2 F) :
    Option (TurtleDrawerInterface F) :=
  match d with
  | none => none
  | some d1 => d1.line ops fuel start end_

/-- The function render_l_system (lines 281-306): expansion, a first interpretation against the
bounding-box collector, the canvas size computed from its min and max points, the allocation
of the image, and a second interpretation against the drawer. The result is the image handed
to stbi_write_png (the printf calls are left out). There is no test between the first
interpretation and the computation of width and height. -/
def render_l_system {F : Type} [LinearOrder F] (rops : RenderOps F) (fuel : Nat)
    (ax : List Char) (rules : Rules) (iterations : Int) (angle length : F) :
    Except UB (Option Image) :=
  let current_string := expand rules iterations ax
  match run_turtle rops.toFloatOps TurtleTestInterface.line
      (TurtleTestInterface.init rops.toFloatOps) current_string angle length with
  | .error e => .error e
  | .ok st =>
    let interface := st.sink
    let width := rops.toInt (rops.ceilf (rops.fabs
      (rops.sub interface.max_point.x interface.min_point.x)))
    let height := rops.toInt (rops.ceilf (rops.fabs
      (rops.sub interface.max_point.y interface.min_point.y)))
    let image := Image.create width height 3
    let color : RGB := { r := 255, g := 255, b := 255 }
    let offset : Vec2 F :=
      { x := rops.neg interface.min_point.x, y := rops.neg interface.min_point.y }
    let drawer_interface : TurtleDrawerInterface F :=
      { image := image, color := color, offset := offset, flip := false }
    match run_turtle rops.toFloatOps (TurtleDrawerInterface.line_sink rops.toFloatOps fuel)
        (some drawer_interface) current_string angle length with
    | .error e => .error e
    | .ok st2 => .ok (st2.sink.map (fun d => d.image))

/-! ## Vocabulary of the statements -/

/-- The characters run_turtle reacts to. -/
def is_command (c : Char) : Bool :=
  c = 'F' || c = '+' || c = '-' || c = '[' || c = ']'

/-- Bracket depth after reading a string from depth d: none as soon as a closing bracket has no
open bracket to close. -/
def bracket_depth : Nat → List Char → Option Nat
  | d, [] => some d
  | d, c :: rest =>
    if c = '[' then bracket_depth (d + 1) rest
    else if c = ']' then
      match d with
      | 0 => none
      | k + 1 => bracket_depth k rest
    else bracket_depth d rest

/-- A well-formed string: every opening bracket is closed later and no closing bracket comes
without an open one. -/
def WellFormed (s : List Char) : Prop := bracket_depth 0 s = some 0

instance (s : List Char) : Decidable (WellFormed s) := by
  unfold WellFormed; infer_instance

/-- The float arithmetic is exact at the integer n: converting n to float, adding the zero
offset and converting back gives n. (True of IEEE single precision for every n of magnitude
below 2^24.) -/
def FloatOps.exact_at {F : Type} (ops : FloatOps F) (n : Int) : Prop :=
  ops.toInt (ops.add (ops.ofInt 0) (ops.ofInt n)) = n

/-- An executable instance of the float primitives on integer values, with headings in whole
degrees: cosf and sinf are given on the multiples of 90 degrees, where they are -1, 0 or 1,
and mulDeg2Rad keeps the angle in degrees. It serves to evaluate the definitions on inputs
drawn on the integer grid. -/
def gridOps : FloatOps Int where
  add := fun a b => a + b
  sub := fun a b => a - b
  mul := fun a b => a * b
  neg := fun a => -a
  cosf := fun a => if a % 360 = 0 then 1 else if a % 360 = 180 then -1 else 0
  sinf := fun a => if a % 360 = 90 then 1 else if a % 360 = 270 then -1 else 0
  mulDeg2Rad := fun a => a
  ofInt := fun n => n
  toInt := fun a => a
  FLT_MAX := 340282346638528859811704183484516925440

/-- A point whose two coordinates lie between the sentinels -FLT_MAX and FLT_MAX. -/
def Vec2.in_sentinel_range {F : Type} [LinearOrder F] (ops : FloatOps F) (p : Vec2 F) : Prop :=
  (ops.neg ops.FLT_MAX ≤ p.x ∧ p.x ≤ ops.FLT_MAX) ∧ (ops.neg ops.FLT_MAX ≤ p.y ∧ p.y ≤ ops.FLT_MAX)

/-- The x coordinates of both endpoints of every segment of a list. -/
def seg_xs {F : Type} (segs : List (Vec2 F × Vec2 F)) : List F :=
  segs.flatMap (fun seg => [seg.1.x, seg.2.x])

/-- The y coordinates of both endpoints of every segment of a list. -/
def seg_ys {F : Type} (segs : List (Vec2 F × Vec2 F)) : List F :=
  segs.flatMap (fun seg => [seg.1.y, seg.2.y])

/-- Two segments on the integer grid: up from the origin by 5, then right by 5. -/
def sample_segs : List (Vec2 Int × Vec2 Int) :=
  [({ x := 0, y := 0 }, { x := 0, y := -5 }), ({ x := 0, y := -5 }, { x := 5, y := -5 })]

/-- White, the stroke colour used by render_l_system. -/
def white : RGB := { r := 255, g := 255, b := 255 }

/-- The colour read back at pixel (x, y): the three bytes, read with safe_get, at the byte
positions that set(x, y, c) writes. -/
def Image.pixel_at (img : Image) (x y : Int) : RGB :=
  let index := (y * img.width + x) * img.channels
  { r := img.safe_get (toSizeT index),
    g := img.safe_get (toSizeT (index + 1)),
    b := img.safe_get (toSizeT (index + 2)) }

/-- A 3-channel buffer of width w and height h: the byte vector has w * h * 3 bytes, a count
that fits an int. -/
def Image.is_rgb_buffer (img : Image) (w h : Int) : Prop :=
  img.width = w ∧ img.height = h ∧ img.channels = 3
  ∧ (img.pixels.length : Int) = w * h * 3 ∧ w * h * 3 < 2 ^ 31

/-- The drawer over a zero-initialised 3-channel buffer of width w and height h, with stroke
colour c, zero offset and no flip. -/
def TurtleDrawerInterface.plain {F : Type} (ops : FloatOps F) (w h : Int) (c : RGB) :
    TurtleDrawerInterface F :=
  { image := Image.create w h 3, color := c,
    offset := { x := ops.ofInt 0, y := ops.ofInt 0 }, flip := false }

/-- A string whose interpretation never pops the empty stack: no closing bracket comes without
an open one. -/
def NeverPopsEmpty (s : List Char) : Prop := (bracket_depth 0 s).isSome = true

instance (s : List Char) : Decidable (NeverPopsEmpty s) := by
  unfold NeverPopsEmpty; infer_instance

/-- The rule set with the single rule F -> F. -/
def self_rules : Rules := [('F', ['F'])]

/-- The loop invariant of Image.line with a steps left in x and b steps left in y. -/
def LineInv (dx dy sx sy x2 y2 x1 y1 err a b : Int) : Prop :=
  (0 ≤ a ∧ a ≤ dx) ∧ (0 ≤ b ∧ b ≤ dy)
  ∧ x1 = x2 - sx * a ∧ y1 = y2 - sy * b ∧ err = dx - dy + a * dy - b * dx

/-- Two successive plotted points: they differ by at most 1 in x and at most 1 in y, and they are
not equal. -/
def unit_step (p q : Int × Int) : Prop :=
  (q.1 - p.1).natAbs ≤ 1 ∧ (q.2 - p.2).natAbs ≤ 1 ∧ q ≠ p

/-- The collector after the first interpretation pass of render_l_system (line 293), for a
given step length. -/
def bounding_box {F : Type} [LinearOrder F] (ops : FloatOps F) (current_string : List Char)
    (angle length : F) : Except UB (TurtleTestInterface F) :=
  (run_turtle ops TurtleTestInterface.line (TurtleTestInterface.init ops) current_string
    angle length).map (fun st => st.sink)

/-- The width of the bounding box: the float difference max_point.x - min_point.x, as formed at
line 297. -/
def TurtleTestInterface.width {F : Type} (ops : FloatOps F) (b : TurtleTestInterface F) : F :=
  ops.sub b.max_point.x b.min_point.x

/-- The height of the bounding box: the float difference max_point.y - min_point.y, as formed at
line 298. -/
def TurtleTestInterface.height {F : Type} (ops : FloatOps F) (b : TurtleTestInterface F) : F :=
  ops.sub b.max_point.y b.min_point.y

/-- Exact arithmetic: the float type is an ordered ring in which the float addition,
subtraction, multiplication and negation are the ring operations (no rounding, no overflow),
the literal 0.f is the zero of the ring and FLT_MAX is not negative. -/
def FloatOps.exact {F : Type} [LinearOrderedCommRing F] (ops : FloatOps F) : Prop :=
  (∀ a b : F, ops.add a b = a + b) ∧ (∀ a b : F, ops.sub a b = a - b)
  ∧ (∀ a b : F, ops.mul a b = a * b) ∧ (∀ a : F, ops.neg a = -a)
  ∧ ops.ofInt 0 = 0 ∧ 0 ≤ ops.FLT_MAX

/-- The least e, searched upwards from e with the given number of tries, for which m / 2^e is
below 2^24. -/
def round24_shift : Nat → Nat → Nat → Nat
  | 0, e, _ => e
  | tries + 1, e, m => if m / 2 ^ e < 2 ^ 24 then e else round24_shift tries (e + 1) m

/-- Rounding of a natural number to 24 significant bits, to nearest, ties to even: the rounding
of IEEE single precision (numbers below 2^24 are kept; overflow is not modelled). -/
def round24_nat (m : Nat) : Nat :=
  let e := round24_shift 128 0 m
  let q := m / 2 ^ e
  let r := m % 2 ^ e
  if e = 0 then m
  else if r > 2 ^ (e - 1) ∨ (r = 2 ^ (e - 1) ∧ q % 2 = 1) then (q + 1) * 2 ^ e
  else q * 2 ^ e

/-- Rounding of an integer to 24 significant bits, symmetric in the sign. -/
def round24 (n : Int) : Int :=
  if n < 0 then -((round24_nat n.natAbs : Nat) : Int) else ((round24_nat n.natAbs : Nat) : Int)

/-- Single-precision arithmetic on integer values: the sum, difference and product of two
integer-valued floats, and the conversion of an int, are rounded to 24 significant bits; cosf,
sinf and mulDeg2Rad are those of gridOps (sinf is exactly 1 at the initial heading of 90
degrees, as sinf(1.5707964f) is in single precision). -/
def roundOps : FloatOps Int where
  add := fun a b => round24 (a + b)
  sub := fun a b => round24 (a - b)
  mul := fun a b => round24 (a * b)
  neg := fun a => -a
  cosf := gridOps.cosf
  sinf := gridOps.sinf
  mulDeg2Rad := gridOps.mulDeg2Rad
  ofInt := fun n => round24 n
  toInt := fun a => a
  FLT_MAX := 340282346638528859811704183484516925440

/-- The turtle t1 is the turtle t with its position multiplied by k and the same heading. -/
def Turtle.scaled {F : Type} [LinearOrderedCommRing F] (k : F) (t t1 : Turtle F) : Prop :=
  t1.state.angle = t.state.angle
  ∧ t1.state.position.x = k * t.state.position.x
  ∧ t1.state.position.y = k * t.state.position.y

/-- A turtle at the origin. -/
def Turtle.at_origin {F : Type} [LinearOrderedCommRing F] (t : Turtle F) : Prop :=
  t.state.position.x = 0 ∧ t.state.position.y = 0

/-- The collector b1 is the collector b with its min and max points multiplied by k. -/
def TurtleTestInterface.scaled {F : Type} [LinearOrderedCommRing F] (k : F)
    (b b1 : TurtleTestInterface F) : Prop :=
  (b1.min_point.x = k * b.min_point.x ∧ b1.min_point.y = k * b.min_point.y)
  ∧ (b1.max_point.x = k * b.max_point.x ∧ b1.max_point.y = k * b.max_point.y)

/-- The relation between the interpreter state of the run with step length and that of the run
with step length k * length: turtle and stack are scaled, and either no segment has been emitted
(both collectors are as constructed and every turtle is still at the origin) or the collector
is scaled. -/
def Interp.scaled {F : Type} [LinearOrderedCommRing F] (ops : FloatOps F) (k : F)
    (st st1 : Interp F (TurtleTestInterface F)) : Prop :=
  st.turtle.scaled k st1.turtle
  ∧ List.Forall₂ (Turtle.scaled k) st.stack st1.stack
  ∧ ((st.sink = TurtleTestInterface.init ops ∧ st1.sink = TurtleTestInterface.init ops
        ∧ st.turtle.at_origin ∧ ∀ t ∈ st.stack, t.at_origin)
      ∨ st.sink.scaled k st1.sink)

/-! ## Properties of the expander -/

theorem apply_rules_foldl_acc (rules : Rules) (s acc : List Char) :
    s.foldl
      (fun result c =>
        match rules.find c with
        | some replacement => result ++ replacement
        | none => result ++ [c])
      acc
    = acc ++ (s.map (fun c => (rules.find c).getD [c])).flatten := by
  induction s generalizing acc with
  | nil => simp
  | cons c cs ih =>
    simp only [List.foldl_cons, List.map_cons, List.flatten_cons]
    rw [ih]
    cases h : rules.find c <;> simp

theorem apply_rules_eq_flatten (rules : Rules) (s : List Char) :
    apply_rules rules s = (s.map (fun c => (rules.find c).getD [c])).flatten := by
  unfold apply_rules
  rw [apply_rules_foldl_acc]
  simp

/-- C1: one generation of rewriting replaces s by the left-to-right concatenation, over the
symbols c of s, of the replacement of c when c is a rule key and of c itself otherwise (so
replacement text is not rescanned in the same generation); with the default rules the axiom X
becomes exactly F-[[X]+X]+F[+FX]-X after one generation. -/
theorem C1_apply_rules_concat :
    (∀ (rules : Rules) (s : List Char),
      apply_rules rules s
        = (s.map (fun c =>
            match rules.find c with
            | some replacement => replacement
            | none => [c])).flatten)
    ∧ expand default_rules 1 "X".toList = "F-[[X]+X]+F[+FX]-X".toList := by
  refine ⟨fun rules s => ?_, by decide⟩
  rw [apply_rules_eq_flatten]
  congr 2
  funext c
  cases rules.find c <;> rfl

/-- C2: expanding for 0 generations returns the axiom unchanged, and expanding for 1 generation
is exactly one apply_rules pass over the axiom. -/
theorem C2_expand_zero_one (rules : Rules) (a : List Char) :
    expand rules 0 a = a ∧ expand rules 1 a = apply_rules rules a := by
  constructor <;> rfl

/-! ## Properties of the path interpreter -/

/-- C6: on the string consisting of a single pop command, run_turtle calls stack.top() on the
empty stack: the model reaches the undefined read, whatever the sink, angle and length. The
same holds for the loop body in any state whose stack is empty. -/
theorem C6_pop_on_empty_stack_reads_top {F σ : Type} (ops : FloatOps F)
    (line : σ → Vec2 F → Vec2 F → σ) (sink : σ) (angle length : F) :
    run_turtle ops line sink "]".toList angle length = .error UB.top_of_empty_stack
    ∧ ∀ (t : Turtle F) (s : σ),
        run_turtle_step ops line angle length { turtle := t, stack := [], sink := s } ']'
          = .error UB.top_of_empty_stack := by
  constructor
  · rfl
  · intro t s
    rfl

theorem run_turtle_loop_depth {F σ : Type} (ops : FloatOps F) (line : σ → Vec2 F → Vec2 F → σ)
    (angle length : F) (s : List Char) :
    ∀ (st : Interp F σ) (d : Nat), bracket_depth st.stack.length s = some d →
      ∃ st1 : Interp F σ,
        run_turtle_loop ops line angle length s st = .ok st1 ∧ st1.stack.length = d := by
  induction s with
  | nil =>
    intro st d h
    simp only [bracket_depth, Option.some.injEq] at h
    exact ⟨st, rfl, h⟩
  | cons c rest ih =>
    intro st d h
    unfold bracket_depth at h
    unfold run_turtle_loop run_turtle_step
    by_cases hF : c = 'F'
    · subst hF
      simp only [Char.reduceEq, if_false] at h
      simpa using ih { st with turtle := (st.turtle.forward ops line st.sink length).1,
                               sink := (st.turtle.forward ops line st.sink length).2 } d h
    by_cases hp : c = '+'
    · subst hp
      simp only [Char.reduceEq, if_false] at h
      simpa using ih { st with turtle := st.turtle.right ops angle } d h
    by_cases hm : c = '-'
    · subst hm
      simp only [Char.reduceEq, if_false] at h
      simpa using ih { st with turtle := st.turtle.left ops angle } d h
    by_cases ho : c = '['
    · subst ho
      simp only [if_true] at h
      simpa using ih { st with stack := st.turtle :: st.stack } d h
    by_cases hc : c = ']'
    · subst hc
      simp only [Char.reduceEq, if_false, if_true] at h
      cases hst : st.stack with
      | nil =>
        rw [hst] at h
        simp at h
      | cons top more =>
        rw [hst] at h
        simp only [List.length_cons] at h
        simpa using ih { st with turtle := top, stack := more } d h
    · simp only [ho, hc, if_false] at h
      simpa [hF, hp, hm, ho, hc] using ih st d h

/-- C7: on a well-formed string run_turtle never pops the empty stack (the run completes without
reaching the undefined read) and the stack is empty when interpretation ends. -/
theorem C7_well_formed_stack_empty {F σ : Type} (ops : FloatOps F)
    (line : σ → Vec2 F → Vec2 F → σ) (sink : σ) (angle length : F) (s : List Char)
    (h : WellFormed s) :
    ∃ st : Interp F σ, run_turtle ops line sink s angle length = .ok st ∧ st.stack = [] := by
  obtain ⟨st, hrun, hlen⟩ :=
    run_turtle_loop_depth ops line angle length s
      { turtle := Turtle.init ops, stack := [], sink := sink } 0 h
  exact ⟨st, hrun, List.length_eq_zero.mp hlen⟩

/-- Witness of C7 on the replacement string of the default grammar, with the recording sink. -/
theorem C7_well_formed_stack_empty_witness :
    WellFormed "F-[[X]+X]+F[+FX]-X".toList
    ∧ ∃ st : Interp Int (List (Vec2 Int × Vec2 Int)),
        run_turtle gridOps record_line [] "F-[[X]+X]+F[+FX]-X".toList 90 5 = .ok st
        ∧ st.stack = [] :=
  ⟨by decide,
   C7_well_formed_stack_empty gridOps record_line [] 90 5 "F-[[X]+X]+F[+FX]-X".toList (by decide)⟩

/-- C8: from every turtle state, stack and sink, interpreting a push immediately followed by a
pop ends with the same turtle state, the same stack and the same sink (no segment is emitted). -/
theorem C8_push_pop_noop {F σ : Type} (ops : FloatOps F) (line : σ → Vec2 F → Vec2 F → σ)
    (angle length : F) (st : Interp F σ) :
    run_turtle_loop ops line angle length ['[', ']'] st = .ok st := by
  rfl

theorem run_turtle_step_ignored {F σ : Type} (ops : FloatOps F) (line : σ → Vec2 F → Vec2 F → σ)
    (angle length : F) (st : Interp F σ) (c : Char) (h : is_command c = false) :
    run_turtle_step ops line angle length st c = .ok st := by
  simp only [is_command, Bool.or_eq_false_iff, decide_eq_false_iff_not] at h
  obtain ⟨⟨⟨⟨h1, h2⟩, h3⟩, h4⟩, h5⟩ := h
  simp [run_turtle_step, h1, h2, h3, h4, h5]

theorem run_turtle_loop_filter {F σ : Type} (ops : FloatOps F) (line : σ → Vec2 F → Vec2 F → σ)
    (angle length : F) (s : List Char) :
    ∀ st : Interp F σ,
      run_turtle_loop ops line angle length (s.filter is_command) st
        = run_turtle_loop ops line angle length s st := by
  induction s with
  | nil => intro st; rfl
  | cons c rest ih =>
    intro st
    cases hc : is_command c with
    | true =>
      rw [List.filter_cons_of_pos hc]
      unfold run_turtle_loop
      cases run_turtle_step ops line angle length st c with
      | error e => rfl
      | ok st1 => exact ih st1
    | false =>
      rw [List.filter_cons_of_neg (by simp [hc])]
      conv_rhs => unfold run_turtle_loop
      rw [run_turtle_step_ignored ops line angle length st c hc]
      exact ih st

/-- C9: run_turtle on s and on s with every symbol other than F, +, -, [ and ] removed give the
same result for every sink: the same final sink state (with the recording sink, the same
sequence of segments), the same turtle and stack, and the undefined pop at the same place. -/
theorem C9_other_symbols_ignored {F σ : Type} (ops : FloatOps F)
    (line : σ → Vec2 F → Vec2 F → σ) (sink : σ) (angle length : F) (s : List Char) :
    run_turtle ops line sink (s.filter is_command) angle length
      = run_turtle ops line sink s angle length
    ∧ (run_turtle ops record_line [] (s.filter is_command) angle length).map (fun st => st.sink)
      = (run_turtle ops record_line [] s angle length).map (fun st => st.sink) := by
  constructor
  · exact run_turtle_loop_filter ops line angle length s _
  · unfold run_turtle
    rw [run_turtle_loop_filter]

/-! ## Properties of the bounding-box collector -/

theorem TurtleTestInterface.upd_min_x {F : Type} [LinearOrder F] (b : TurtleTestInterface F)
    (v : F) :
    (if v < b.min_point.x then b.set_min_x v else b) = b.set_min_x (min b.min_point.x v) := by
  split_ifs with h
  · rw [min_eq_right (le_of_lt h)]
  · rw [min_eq_left (not_lt.mp h)]; rfl

theorem TurtleTestInterface.upd_min_y {F : Type} [LinearOrder F] (b : TurtleTestInterface F)
    (v : F) :
    (if v < b.min_point.y then b.set_min_y v else b) = b.set_min_y (min b.min_point.y v) := by
  split_ifs with h
  · rw [min_eq_right (le_of_lt h)]
  · rw [min_eq_left (not_lt.mp h)]; rfl

theorem TurtleTestInterface.upd_max_x {F : Type} [LinearOrder F] (b : TurtleTestInterface F)
    (v : F) :
    (if v > b.max_point.x then b.set_max_x v else b) = b.set_max_x (max b.max_point.x v) := by
  split_ifs with h
  · rw [max_eq_right (le_of_lt h)]
  · rw [max_eq_left (not_lt.mp h)]; rfl

theorem TurtleTestInterface.upd_max_y {F : Type} [LinearOrder F] (b : TurtleTestInterface F)
    (v : F) :
    (if v > b.max_point.y then b.set_max_y v else b) = b.set_max_y (max b.max_point.y v) := by
  split_ifs with h
  · rw [max_eq_right (le_of_lt h)]
  · rw [max_eq_left (not_lt.mp h)]; rfl

/-- Closed form of one call of the collector: each of the four components is widened by the
start point and then by the end point. -/
theorem TurtleTestInterface.line_eq {F : Type} [LinearOrder F] (b : TurtleTestInterface F)
    (p q : Vec2 F) :
    b.line p q =
      { max_point := { x := max (max b.max_point.x p.x) q.x, y := max (max b.max_point.y p.y) q.y },
        min_point := { x := min (min b.min_point.x p.x) q.x, y := min (min b.min_point.y p.y) q.y } } := by
  unfold TurtleTestInterface.line
  lift_lets
  intro b1 b2 b3 b4 b5 b6 b7
  have h1 : b1 = _ := TurtleTestInterface.upd_min_x b p.x
  have h2 : b2 = _ := TurtleTestInterface.upd_min_y b1 p.y
  have h3 : b3 = _ := TurtleTestInterface.upd_max_x b2 p.x
  have h4 : b4 = _ := TurtleTestInterface.upd_max_y b3 p.y
  have h5 : b5 = _ := TurtleTestInterface.upd_min_x b4 q.x
  have h6 : b6 = _ := TurtleTestInterface.upd_min_y b5 q.y
  have h7 : b7 = _ := TurtleTestInterface.upd_max_x b6 q.x
  rw [TurtleTestInterface.upd_max_y b7 q.y]
  clear_value b1 b2 b3 b4 b5 b6 b7
  subst h1 h2 h3 h4 h5 h6 h7
  rfl

/-- Folding a component that each call widens downwards: the result is below the initial value
and below every fed coordinate, and it is the initial value or one of the fed coordinates. -/
theorem foldl_line_lower {F : Type} [LinearOrder F] (f : TurtleTestInterface F → F)
    (g : Vec2 F → F)
    (hf : ∀ (b : TurtleTestInterface F) (p q : Vec2 F), f (b.line p q) = min (min (f b) (g p)) (g q))
    (segs : List (Vec2 F × Vec2 F)) :
    ∀ b0 : TurtleTestInterface F,
      f (segs.foldl (fun b seg => b.line seg.1 seg.2) b0) ≤ f b0
      ∧ (∀ v ∈ segs.flatMap (fun seg => [g seg.1, g seg.2]),
          f (segs.foldl (fun b seg => b.line seg.1 seg.2) b0) ≤ v)
      ∧ (f (segs.foldl (fun b seg => b.line seg.1 seg.2) b0) = f b0
          ∨ f (segs.foldl (fun b seg => b.line seg.1 seg.2) b0)
              ∈ segs.flatMap (fun seg => [g seg.1, g seg.2])) := by
  induction segs with
  | nil => intro b0; simp
  | cons seg rest ih =>
    intro b0
    obtain ⟨h1, h2, h3⟩ := ih (b0.line seg.1 seg.2)
    rw [hf] at h1 h3
    simp only [List.foldl_cons, List.flatMap_cons, List.mem_append, List.mem_cons,
      List.mem_singleton, List.not_mem_nil, or_false]
    have hle := h1
    rw [le_min_iff, le_min_iff] at hle
    refine ⟨hle.1.1, ?_, ?_⟩
    · rintro v ((rfl | rfl) | hv)
      · exact hle.1.2
      · exact hle.2
      · exact h2 v hv
    · rcases h3 with h3 | h3
      · rcases min_choice (min (f b0) (g seg.1)) (g seg.2) with hc | hc
        · rcases min_choice (f b0) (g seg.1) with hd | hd
          · left; rw [h3, hc, hd]
          · right; left; left; rw [h3, hc, hd]
        · right; left; right; rw [h3, hc]
      · right; right; exact h3

/-- Folding a component that each call widens upwards: the mirror image of foldl_line_lower. -/
theorem foldl_line_upper {F : Type} [LinearOrder F] (f : TurtleTestInterface F → F)
    (g : Vec2 F → F)
    (hf : ∀ (b : TurtleTestInterface F) (p q : Vec2 F), f (b.line p q) = max (max (f b) (g p)) (g q))
    (segs : List (Vec2 F × Vec2 F)) :
    ∀ b0 : TurtleTestInterface F,
      f b0 ≤ f (segs.foldl (fun b seg => b.line seg.1 seg.2) b0)
      ∧ (∀ v ∈ segs.flatMap (fun seg => [g seg.1, g seg.2]),
          v ≤ f (segs.foldl (fun b seg => b.line seg.1 seg.2) b0))
      ∧ (f (segs.foldl (fun b seg => b.line seg.1 seg.2) b0) = f b0
          ∨ f (segs.foldl (fun b seg => b.line seg.1 seg.2) b0)
              ∈ segs.flatMap (fun seg => [g seg.1, g seg.2])) := by
  induction segs with
  | nil => intro b0; simp
  | cons seg rest ih =>
    intro b0
    obtain ⟨h1, h2, h3⟩ := ih (b0.line seg.1 seg.2)
    rw [hf] at h1 h3
    simp only [List.foldl_cons, List.flatMap_cons, List.mem_append, List.mem_cons,
      List.mem_singleton, List.not_mem_nil, or_false]
    have hle := h1
    rw [max_le_iff, max_le_iff] at hle
    refine ⟨hle.1.1, ?_, ?_⟩
    · rintro v ((rfl | rfl) | hv)
      · exact hle.1.2
      · exact hle.2
      · exact h2 v hv
    · rcases h3 with h3 | h3
      · rcases max_choice (max (f b0) (g seg.1)) (g seg.2) with hc | hc
        · rcases max_choice (f b0) (g seg.1) with hd | hd
          · left; rw [h3, hc, hd]
          · right; left; left; rw [h3, hc, hd]
        · right; left; right; rw [h3, hc]
      · right; right; exact h3

/-- A lower fold started at a value that bounds every coordinate from above ends, on a non-empty
list, at the least coordinate. -/
theorem isLeast_of_fold {F : Type} [LinearOrder F] (r m0 : F) (l : List F) (hne : l ≠ [])
    (hinit : ∀ v ∈ l, v ≤ m0) (hlow : ∀ v ∈ l, r ≤ v) (hmem : r = m0 ∨ r ∈ l) :
    IsLeast {v | v ∈ l} r := by
  refine ⟨?_, fun v hv => hlow v hv⟩
  rcases hmem with h | h
  · obtain ⟨v, hv⟩ := List.exists_mem_of_ne_nil l hne
    have : v = r := le_antisymm (h ▸ hinit v hv) (hlow v hv)
    exact this ▸ hv
  · exact h

/-- An upper fold started at a value that bounds every coordinate from below ends, on a
non-empty list, at the greatest coordinate. -/
theorem isGreatest_of_fold {F : Type} [LinearOrder F] (r m0 : F) (l : List F) (hne : l ≠ [])
    (hinit : ∀ v ∈ l, m0 ≤ v) (hup : ∀ v ∈ l, v ≤ r) (hmem : r = m0 ∨ r ∈ l) :
    IsGreatest {v | v ∈ l} r := by
  refine ⟨?_, fun v hv => hup v hv⟩
  rcases hmem with h | h
  · obtain ⟨v, hv⟩ := List.exists_mem_of_ne_nil l hne
    have : v = r := le_antisymm (hup v hv) (h ▸ hinit v hv)
    exact this ▸ hv
  · exact h

theorem seg_xs_ne_nil {F : Type} (segs : List (Vec2 F × Vec2 F)) (hne : segs ≠ []) :
    seg_xs segs ≠ [] := by
  cases segs with
  | nil => exact absurd rfl hne
  | cons seg rest => simp [seg_xs]

theorem seg_ys_ne_nil {F : Type} (segs : List (Vec2 F × Vec2 F)) (hne : segs ≠ []) :
    seg_ys segs ≠ [] := by
  cases segs with
  | nil => exact absurd rfl hne
  | cons seg rest => simp [seg_ys]

theorem seg_xs_in_range {F : Type} [LinearOrder F] (ops : FloatOps F)
    (segs : List (Vec2 F × Vec2 F))
    (hrange : ∀ seg ∈ segs, seg.1.in_sentinel_range ops ∧ seg.2.in_sentinel_range ops) :
    ∀ v ∈ seg_xs segs, ops.neg ops.FLT_MAX ≤ v ∧ v ≤ ops.FLT_MAX := by
  intro v hv
  simp only [seg_xs, List.mem_flatMap, List.mem_cons, List.mem_singleton, List.not_mem_nil,
    or_false] at hv
  obtain ⟨seg, hseg, rfl | rfl⟩ := hv
  · exact (hrange seg hseg).1.1
  · exact (hrange seg hseg).2.1

theorem seg_ys_in_range {F : Type} [LinearOrder F] (ops : FloatOps F)
    (segs : List (Vec2 F × Vec2 F))
    (hrange : ∀ seg ∈ segs, seg.1.in_sentinel_range ops ∧ seg.2.in_sentinel_range ops) :
    ∀ v ∈ seg_ys segs, ops.neg ops.FLT_MAX ≤ v ∧ v ≤ ops.FLT_MAX := by
  intro v hv
  simp only [seg_ys, List.mem_flatMap, List.mem_cons, List.mem_singleton, List.not_mem_nil,
    or_false] at hv
  obtain ⟨seg, hseg, rfl | rfl⟩ := hv
  · exact (hrange seg hseg).1.2
  · exact (hrange seg hseg).2.2

/-- C10: after a non-empty sequence of segments with coordinates inside the sentinel range, the
collector's min_point.x and min_point.y are the least, and max_point.x and max_point.y the
greatest, of the x and y coordinates over both endpoints of every segment; and a call of line, in
any state, never increases a min component nor decreases a max component. -/
theorem C10_bounding_box_min_max {F : Type} [LinearOrder F] (ops : FloatOps F)
    (segs : List (Vec2 F × Vec2 F)) (hne : segs ≠ [])
    (hrange : ∀ seg ∈ segs, seg.1.in_sentinel_range ops ∧ seg.2.in_sentinel_range ops) :
    (IsLeast {v | v ∈ seg_xs segs} (TurtleTestInterface.feed ops segs).min_point.x
      ∧ IsLeast {v | v ∈ seg_ys segs} (TurtleTestInterface.feed ops segs).min_point.y
      ∧ IsGreatest {v | v ∈ seg_xs segs} (TurtleTestInterface.feed ops segs).max_point.x
      ∧ IsGreatest {v | v ∈ seg_ys segs} (TurtleTestInterface.feed ops segs).max_point.y)
    ∧ ∀ (b : TurtleTestInterface F) (start end_ : Vec2 F),
        (b.line start end_).min_point.x ≤ b.min_point.x
        ∧ (b.line start end_).min_point.y ≤ b.min_point.y
        ∧ b.max_point.x ≤ (b.line start end_).max_point.x
        ∧ b.max_point.y ≤ (b.line start end_).max_point.y := by
  have hx := seg_xs_in_range ops segs hrange
  have hy := seg_ys_in_range ops segs hrange
  have hxne := seg_xs_ne_nil segs hne
  have hyne := seg_ys_ne_nil segs hne
  refine ⟨⟨?_, ?_, ?_, ?_⟩, fun b p q => ?_⟩
  · obtain ⟨-, h2, h3⟩ := foldl_line_lower (fun b => b.min_point.x) (fun p => p.x)
      (fun b p q => by rw [TurtleTestInterface.line_eq]) segs (TurtleTestInterface.init ops)
    exact isLeast_of_fold _ ops.FLT_MAX _ hxne (fun v hv => (hx v hv).2) h2 h3
  · obtain ⟨-, h2, h3⟩ := foldl_line_lower (fun b => b.min_point.y) (fun p => p.y)
      (fun b p q => by rw [TurtleTestInterface.line_eq]) segs (TurtleTestInterface.init ops)
    exact isLeast_of_fold _ ops.FLT_MAX _ hyne (fun v hv => (hy v hv).2) h2 h3
  · obtain ⟨-, h2, h3⟩ := foldl_line_upper (fun b => b.max_point.x) (fun p => p.x)
      (fun b p q => by rw [TurtleTestInterface.line_eq]) segs (TurtleTestInterface.init ops)
    exact isGreatest_of_fold _ (ops.neg ops.FLT_MAX) _ hxne (fun v hv => (hx v hv).1) h2 h3
  · obtain ⟨-, h2, h3⟩ := foldl_line_upper (fun b => b.max_point.y) (fun p => p.y)
      (fun b p q => by rw [TurtleTestInterface.line_eq]) segs (TurtleTestInterface.init ops)
    exact isGreatest_of_fold _ (ops.neg ops.FLT_MAX) _ hyne (fun v hv => (hy v hv).1) h2 h3
  · rw [TurtleTestInterface.line_eq]
    exact ⟨le_trans (min_le_left _ _) (min_le_left _ _),
      le_trans (min_le_left _ _) (min_le_left _ _),
      le_trans (le_max_left _ _) (le_max_left _ _),
      le_trans (le_max_left _ _) (le_max_left _ _)⟩

/-- Witness of C10 on two segments of the integer grid. -/
theorem C10_bounding_box_min_max_witness :
    sample_segs ≠ []
    ∧ IsLeast {v | v ∈ seg_xs sample_segs} (TurtleTestInterface.feed gridOps sample_segs).min_point.x
    ∧ IsGreatest {v | v ∈ seg_ys sample_segs}
        (TurtleTestInterface.feed gridOps sample_segs).max_point.y :=
  have h := (C10_bounding_box_min_max gridOps sample_segs (by decide)
    (by simp [sample_segs, Vec2.in_sentinel_range, gridOps])).1
  ⟨by decide, h.1, h.2.2.2⟩

/-! ## Properties of the pixel buffer -/

/-- C3, as stated, fails: in a 2 x 2 buffer of 3 channels the coordinate (2, 0) is out of range
(x = width), yet set writes the three bytes of pixel (0, 1), whose byte index 6 it shares. -/
theorem C3_counterexample :
    ((2 : Int) ≥ (Image.create 2 2 3).width)
    ∧ ((Image.create 2 2 3).set 2 0 white).pixels = [0, 0, 0, 0, 0, 0, 255, 255, 255, 0, 0, 0]
    ∧ (Image.create 2 2 3).set 2 0 white ≠ Image.create 2 2 3 := by
  decide

theorem safe_set_of_ge (img : Image) (index c : Nat) (h : img.pixels.length ≤ index) :
    img.safe_set index c = img := by
  unfold Image.safe_set
  rw [if_pos h]

/-- C3, amended: in a buffer of width * height * channels bytes, set(x, y, colour) leaves the
buffer unchanged whenever the row-major position y * width + x of the pixel is negative or at
least width * height (the int values being in range). -/
theorem C3_set_outside_index_range_noop (img : Image) (x y : Int) (c : RGB)
    (hsize : (img.pixels.length : Int) = img.width * img.height * img.channels)
    (hbytes : img.width * img.height * img.channels < 2 ^ 31)
    (hint : -(2 ^ 31) ≤ (y * img.width + x) * img.channels
      ∧ (y * img.width + x) * img.channels + 2 < 2 ^ 31)
    (hout : y * img.width + x < 0 ∨ img.width * img.height ≤ y * img.width + x) :
    img.set x y c = img := by
  have key : ∀ k : Int, 0 ≤ k → k ≤ 2 → k < img.channels →
      img.pixels.length ≤ toSizeT ((y * img.width + x) * img.channels + k) := by
    intro k hk0 hk2 hk
    unfold toSizeT
    rcases hout with hneg | hbig
    · have h1 : (y * img.width + x) * img.channels ≤ -img.channels := by nlinarith
      omega
    · have h1 : img.width * img.height * img.channels ≤ (y * img.width + x) * img.channels :=
        mul_le_mul_of_nonneg_right hbig (by omega)
      omega
  unfold Image.set
  simp only []
  have e1 : (if img.channels > 0 then
      img.safe_set (toSizeT ((y * img.width + x) * img.channels)) c.r else img) = img := by
    split_ifs with h
    · exact safe_set_of_ge _ _ _ (by simpa using key 0 (le_refl _) (by norm_num) h)
    · rfl
  rw [e1]
  have e2 : (if img.channels > 1 then
      img.safe_set (toSizeT ((y * img.width + x) * img.channels + 1)) c.g else img) = img := by
    split_ifs with h
    · exact safe_set_of_ge _ _ _ (key 1 (by norm_num) (by norm_num) h)
    · rfl
  rw [e2]
  split_ifs with h
  · exact safe_set_of_ge _ _ _ (key 2 (by norm_num) (le_refl _) h)
  · rfl

/-- Witness of the amended C3: row 2 of a 2 x 2 buffer does not exist and nothing is written. -/
theorem C3_set_outside_index_range_noop_witness :
    (Image.create 2 2 3).set 0 2 white = Image.create 2 2 3 :=
  C3_set_outside_index_range_noop (Image.create 2 2 3) 0 2 white
    (by decide) (by decide) (by decide) (by decide)

/-! ## Properties of the line rasteriser -/

/-- A larger budget does not change a result already reached. -/
theorem line_loop_fuel_mono (dx dy sx sy x2 y2 : Int) (c : RGB) (k : Nat) :
    ∀ (fuel : Nat) (img : Image) (x1 y1 err : Int) (r : Image × List (Int × Int)),
      Image.line_loop dx dy sx sy x2 y2 c fuel img x1 y1 err = some r →
      Image.line_loop dx dy sx sy x2 y2 c (fuel + k) img x1 y1 err = some r := by
  intro fuel
  induction fuel with
  | zero =>
    intro img x1 y1 err r h
    simp [Image.line_loop] at h
  | succ n ih =>
    intro img x1 y1 err r h
    rw [Nat.add_right_comm]
    unfold Image.line_loop at h ⊢
    by_cases hend : x1 = x2 ∧ y1 = y2
    · simpa only [if_pos hend] using h
    · simp only [if_neg hend] at h ⊢
      revert h
      cases hrec : Image.line_loop dx dy sx sy x2 y2 c n (img.set x1 y1 c)
          (if 2 * err > -dy then x1 + sx else x1) (if 2 * err < dx then y1 + sy else y1)
          (if 2 * err < dx then (if 2 * err > -dy then err - dy else err) + dx
            else if 2 * err > -dy then err - dy else err) with
      | none => intro h; simp at h
      | some r1 =>
        intro h
        rw [ih _ _ _ _ r1 hrec]
        exact h

/-- One iteration of the loop that does not break, written with Option.map. -/
theorem line_loop_succ_of_ne (dx dy sx sy x2 y2 : Int) (c : RGB) (fuel : Nat) (img : Image)
    (x1 y1 err : Int) (hne : ¬ (x1 = x2 ∧ y1 = y2)) :
    Image.line_loop dx dy sx sy x2 y2 c (fuel + 1) img x1 y1 err
      = (Image.line_loop dx dy sx sy x2 y2 c fuel (img.set x1 y1 c)
          (if 2 * err > -dy then x1 + sx else x1) (if 2 * err < dx then y1 + sy else y1)
          (if 2 * err < dx then (if 2 * err > -dy then err - dy else err) + dx
            else if 2 * err > -dy then err - dy else err)).map
        (fun r => (r.1, (x1, y1) :: r.2)) := by
  conv_lhs => unfold Image.line_loop
  simp only [if_neg hne]
  cases Image.line_loop dx dy sx sy x2 y2 c fuel (img.set x1 y1 c)
      (if 2 * err > -dy then x1 + sx else x1) (if 2 * err < dx then y1 + sy else y1)
      (if 2 * err < dx then (if 2 * err > -dy then err - dy else err) + dx
        else if 2 * err > -dy then err - dy else err) <;> rfl

/-- The iteration that breaks. -/
theorem line_loop_succ_of_eq (dx dy sx sy x2 y2 : Int) (c : RGB) (fuel : Nat) (img : Image)
    (x1 y1 err : Int) (heq : x1 = x2 ∧ y1 = y2) :
    Image.line_loop dx dy sx sy x2 y2 c (fuel + 1) img x1 y1 err
      = some (img.set x1 y1 c, [(x1, y1)]) := by
  conv_lhs => unfold Image.line_loop
  simp only [if_pos heq]

/-- Termination and endpoints of the loop. With a steps left in x and b steps left in y, the
state satisfies x1 = x2 - sx * a, y1 = y2 - sy * b and err = dx - dy + a * dy - b * dx; every
iteration that does not break lowers a or b, never below zero, so a + b + 1 iterations suffice. -/
theorem line_loop_terminates (dx dy sx sy x2 y2 : Int) (c : RGB) :
    ∀ (fuel : Nat) (img : Image) (x1 y1 err a b : Int),
      0 ≤ a → a ≤ dx → 0 ≤ b → b ≤ dy →
      x1 = x2 - sx * a → y1 = y2 - sy * b → err = dx - dy + a * dy - b * dx →
      a + b + 1 ≤ fuel →
      ∃ (img1 : Image) (pts : List (Int × Int)),
        Image.line_loop dx dy sx sy x2 y2 c fuel img x1 y1 err = some (img1, pts)
        ∧ pts.head? = some (x1, y1)
        ∧ pts.getLast? = some (x2, y2)
        ∧ ∀ p ∈ pts.dropLast, p ≠ (x2, y2) := by
  intro fuel
  induction fuel with
  | zero =>
    intro img x1 y1 err a b ha _ hb _ _ _ _ hfuel
    exfalso
    have : (((0 : Nat) : Int)) = 0 := rfl
    omega
  | succ n ih =>
    intro img x1 y1 err a b ha hadx hb hbdy hx hy herr hfuel
    by_cases hend : x1 = x2 ∧ y1 = y2
    · refine ⟨img.set x1 y1 c, [(x1, y1)], line_loop_succ_of_eq _ _ _ _ _ _ _ _ _ _ _ _ hend,
        rfl, ?_, ?_⟩
      · simp [hend.1, hend.2]
      · simp
    · rw [line_loop_succ_of_ne _ _ _ _ _ _ _ _ _ _ _ _ hend]
      have hab : a ≠ 0 ∨ b ≠ 0 := by
        by_contra hcon
        push_neg at hcon
        apply hend
        rw [hx, hy, hcon.1, hcon.2]
        simp
      -- the two products of the error term
      have hP : 0 ≤ a * dy := mul_nonneg ha (by omega)
      have hQ : 0 ≤ b * dx := mul_nonneg hb (by omega)
      have hxstep : 2 * err > -dy → 1 ≤ a := by
        intro h
        by_contra hlt
        have ha0 : a = 0 := by omega
        have hb1 : 1 ≤ b := by omega
        have : dx ≤ b * dx := by nlinarith
        rw [ha0] at herr
        simp only [zero_mul, add_zero] at herr
        omega
      have hystep : 2 * err < dx → 1 ≤ b := by
        intro h
        by_contra hlt
        have hb0 : b = 0 := by omega
        have ha1 : 1 ≤ a := by omega
        have : dy ≤ a * dy := by nlinarith
        rw [hb0] at herr
        simp only [zero_mul, sub_zero] at herr
        omega
      have hcons : ∀ (x1n y1n errn a1 b1 : Int),
          0 ≤ a1 → a1 ≤ dx → 0 ≤ b1 → b1 ≤ dy →
          x1n = x2 - sx * a1 → y1n = y2 - sy * b1 → errn = dx - dy + a1 * dy - b1 * dx →
          a1 + b1 + 1 ≤ n →
          ∃ (img1 : Image) (pts : List (Int × Int)),
            (Image.line_loop dx dy sx sy x2 y2 c n (img.set x1 y1 c) x1n y1n errn).map
              (fun r => (r.1, (x1, y1) :: r.2)) = some (img1, pts)
            ∧ pts.head? = some (x1, y1)
            ∧ pts.getLast? = some (x2, y2)
            ∧ ∀ p ∈ pts.dropLast, p ≠ (x2, y2) := by
        intro x1n y1n errn a1 b1 h1 h2 h3 h4 h5 h6 h7 h8
        obtain ⟨img1, pts, hrun, hhead, hlast, hbefore⟩ :=
          ih (img.set x1 y1 c) x1n y1n errn a1 b1 h1 h2 h3 h4 h5 h6 h7 h8
        refine ⟨img1, (x1, y1) :: pts, by rw [hrun]; rfl, rfl, ?_, ?_⟩
        · cases pts with
          | nil => simp at hhead
          | cons q qs => simpa [List.getLast?_cons_cons] using hlast
        · cases pts with
          | nil => simp at hhead
          | cons q qs =>
            intro p hp
            rw [List.dropLast_cons₂] at hp
            rcases List.mem_cons.mp hp with rfl | hp
            · intro hcontra
              apply hend
              simpa using hcontra
            · exact hbefore p hp
      have hcast : ((n + 1 : Nat) : Int) = (n : Int) + 1 := by push_cast; rfl
      by_cases hxs : 2 * err > -dy
      · have ha1 := hxstep hxs
        by_cases hys : 2 * err < dx
        · have hb1 := hystep hys
          simp only [if_pos hxs, if_pos hys]
          exact hcons _ _ _ (a - 1) (b - 1) (by omega) (by omega) (by omega) (by omega)
            (by rw [hx]; ring) (by rw [hy]; ring) (by rw [herr]; ring) (by omega)
        · simp only [if_pos hxs, if_neg hys]
          exact hcons _ _ _ (a - 1) b (by omega) (by omega) hb hbdy
            (by rw [hx]; ring) hy (by rw [herr]; ring) (by omega)
      · by_cases hys : 2 * err < dx
        · have hb1 := hystep hys
          simp only [if_neg hxs, if_pos hys]
          exact hcons _ _ _ a (b - 1) ha hadx (by omega) (by omega)
            hx (by rw [hy]; ring) (by rw [herr]; ring) (by omega)
        · exfalso
          omega

/-- The initial state of the loop of Image.line satisfies the invariant with all dx steps in x
and all dy steps in y left. -/
theorem line_init_invariant (x1 y1 x2 y2 : Int) :
    x1 = x2 - (if x1 < x2 then 1 else -1) * ((x2 - x1).natAbs : Int)
    ∧ y1 = y2 - (if y1 < y2 then 1 else -1) * ((y2 - y1).natAbs : Int) := by
  constructor
  · split_ifs <;> omega
  · split_ifs <;> omega

/-- Image.line returns within |x2 - x1| + |y2 - y1| + 1 iterations, with the same result for
every larger budget; its first plotted point is the start, its last the destination, and no
point before the last is the destination. -/
theorem line_terminates (img : Image) (x1 y1 x2 y2 : Int) (c : RGB) :
    ∃ (img1 : Image) (pts : List (Int × Int)),
      (∀ k : Nat,
        Image.line ((x2 - x1).natAbs + (y2 - y1).natAbs + 1 + k) img x1 y1 x2 y2 c
          = some (img1, pts))
      ∧ pts.head? = some (x1, y1)
      ∧ pts.getLast? = some (x2, y2)
      ∧ (∀ p ∈ pts.dropLast, p ≠ (x2, y2))
      ∧ (x1, y1) ∈ pts ∧ (x2, y2) ∈ pts := by
  have hinit := line_init_invariant x1 y1 x2 y2
  obtain ⟨img1, pts, hrun, hhead, hlast, hbefore⟩ :=
    line_loop_terminates ((x2 - x1).natAbs : Int) ((y2 - y1).natAbs : Int)
      (if x1 < x2 then 1 else -1) (if y1 < y2 then 1 else -1) x2 y2 c
      ((x2 - x1).natAbs + (y2 - y1).natAbs + 1) img x1 y1
      (((x2 - x1).natAbs : Int) - ((y2 - y1).natAbs : Int))
      ((x2 - x1).natAbs : Int) ((y2 - y1).natAbs : Int)
      (by omega) (le_refl _) (by omega) (le_refl _) hinit.1 hinit.2 (by ring)
      (by push_cast; omega)
  refine ⟨img1, pts, fun k => ?_, hhead, hlast, hbefore, ?_, ?_⟩
  · unfold Image.line
    exact line_loop_fuel_mono _ _ _ _ _ _ _ k _ _ _ _ _ _ hrun
  · exact List.mem_of_mem_head? hhead
  · exact List.mem_of_mem_getLast? hlast

/-- C5: the loop of Image.line terminates (within |x2 - x1| + |y2 - y1| + 1 iterations, and with
the same result for every larger budget); it stops exactly when the current point is (x2, y2):
the last plotted point is (x2, y2) and no point plotted before it is; and the first plotted point
is (x1, y1), so both endpoints are plotted. -/
theorem C5_line_terminates_at_destination (img : Image) (x1 y1 x2 y2 : Int) (c : RGB) :
    ∃ (img1 : Image) (pts : List (Int × Int)),
      (∀ k : Nat,
        Image.line ((x2 - x1).natAbs + (y2 - y1).natAbs + 1 + k) img x1 y1 x2 y2 c
          = some (img1, pts))
      ∧ pts.head? = some (x1, y1)
      ∧ pts.getLast? = some (x2, y2)
      ∧ (∀ p ∈ pts.dropLast, p ≠ (x2, y2))
      ∧ (x1, y1) ∈ pts ∧ (x2, y2) ∈ pts :=
  line_terminates img x1 y1 x2 y2 c

/-! ## Pixel writes inside the buffer -/

theorem safe_set_length (img : Image) (i v : Nat) :
    (img.safe_set i v).pixels.length = img.pixels.length := by
  unfold Image.safe_set
  split_ifs
  · rfl
  · simp

theorem safe_set_dims (img : Image) (i v : Nat) :
    (img.safe_set i v).width = img.width ∧ (img.safe_set i v).height = img.height
    ∧ (img.safe_set i v).channels = img.channels := by
  unfold Image.safe_set
  split_ifs <;> exact ⟨rfl, rfl, rfl⟩

theorem safe_get_safe_set (img : Image) (i v j : Nat) :
    (img.safe_set i v).safe_get j
      = if j = i ∧ i < img.pixels.length then v else img.safe_get j := by
  unfold Image.safe_set
  by_cases hi : i ≥ img.pixels.length
  · rw [if_pos hi, if_neg (by omega)]
  · rw [if_neg hi]
    unfold Image.safe_get
    simp only [List.length_set, List.getD_eq_getElem?_getD, List.getElem?_set]
    by_cases hj : j ≥ img.pixels.length
    · rw [if_pos hj, if_pos hj, if_neg (by omega)]
    · rw [if_neg hj, if_neg hj]
      by_cases hij : i = j
      · subst hij
        rw [if_pos rfl, if_pos (by omega), if_pos ⟨rfl, by omega⟩]
        rfl
      · rw [if_neg hij, if_neg (by omega)]

theorem toSizeT_of_nonneg (i : Int) (h0 : 0 ≤ i) (h1 : i < 2 ^ 64) : toSizeT i = i.toNat := by
  unfold toSizeT
  rw [Int.emod_eq_of_lt h0 h1]

/-- Byte positions of an in-range pixel lie inside the buffer. -/
theorem pixel_index_bounds (w h x y : Int) (hx0 : 0 ≤ x) (hxw : x < w) (hy0 : 0 ≤ y)
    (hyh : y < h) : 0 ≤ (y * w + x) * 3 ∧ (y * w + x) * 3 + 2 < w * h * 3 := by
  have h1 : 0 ≤ y * w := mul_nonneg hy0 (by omega)
  have h2 : (y + 1) * w ≤ h * w := mul_le_mul_of_nonneg_right (by omega) (by omega)
  have h3 : (y + 1) * w = y * w + w := by ring
  have h4 : h * w = w * h := by ring
  constructor <;> omega

/-- Distinct in-range pixels have distinct row-major positions. -/
theorem row_major_inj (w x y px py : Int) (hx0 : 0 ≤ x) (hxw : x < w) (hpx0 : 0 ≤ px)
    (hpxw : px < w) (heq : py * w + px = y * w + x) : px = x ∧ py = y := by
  rcases lt_trichotomy py y with hlt | heq1 | hgt
  · exfalso
    have h2 : (py + 1) * w ≤ y * w := mul_le_mul_of_nonneg_right (by omega) (by omega)
    have h3 : (py + 1) * w = py * w + w := by ring
    omega
  · subst heq1
    exact ⟨by omega, rfl⟩
  · exfalso
    have h2 : (y + 1) * w ≤ py * w := mul_le_mul_of_nonneg_right (by omega) (by omega)
    have h3 : (y + 1) * w = y * w + w := by ring
    omega

/-- Effect of set on an in-range pixel of a 3-channel buffer, byte by byte: the three bytes of
the pixel receive r, g, b and every other byte keeps its value; the dimensions are unchanged. -/
theorem set_in_range (img : Image) (w h x y : Int) (c : RGB) (hbuf : img.is_rgb_buffer w h)
    (hx0 : 0 ≤ x) (hxw : x < w) (hy0 : 0 ≤ y) (hyh : y < h) :
    (img.set x y c).is_rgb_buffer w h
    ∧ ∀ j : Nat, (img.set x y c).safe_get j
        = if j = ((y * w + x) * 3).toNat then c.r
          else if j = ((y * w + x) * 3).toNat + 1 then c.g
          else if j = ((y * w + x) * 3).toNat + 2 then c.b
          else img.safe_get j := by
  obtain ⟨hw, hh, hch, hlen, hbytes⟩ := hbuf
  obtain ⟨hi0, hi2⟩ := pixel_index_bounds w h x y hx0 hxw hy0 hyh
  have e0 : toSizeT ((y * w + x) * 3) = ((y * w + x) * 3).toNat :=
    toSizeT_of_nonneg _ (by omega) (by omega)
  have e1 : toSizeT ((y * w + x) * 3 + 1) = ((y * w + x) * 3).toNat + 1 := by
    rw [toSizeT_of_nonneg _ (by omega) (by omega)]; omega
  have e2 : toSizeT ((y * w + x) * 3 + 2) = ((y * w + x) * 3).toNat + 2 := by
    rw [toSizeT_of_nonneg _ (by omega) (by omega)]; omega
  have hset : img.set x y c
      = ((img.safe_set ((y * w + x) * 3).toNat c.r).safe_set (((y * w + x) * 3).toNat + 1)
          c.g).safe_set (((y * w + x) * 3).toNat + 2) c.b := by
    unfold Image.set
    simp only [hw, hch, e0, e1, e2]
    rfl
  rw [hset]
  refine ⟨⟨?_, ?_, ?_, ?_, hbytes⟩, fun j => ?_⟩
  · rw [(safe_set_dims _ _ _).1, (safe_set_dims _ _ _).1, (safe_set_dims _ _ _).1, hw]
  · rw [(safe_set_dims _ _ _).2.1, (safe_set_dims _ _ _).2.1, (safe_set_dims _ _ _).2.1, hh]
  · rw [(safe_set_dims _ _ _).2.2, (safe_set_dims _ _ _).2.2, (safe_set_dims _ _ _).2.2, hch]
  · rw [safe_set_length, safe_set_length, safe_set_length, hlen]
  · rw [safe_get_safe_set, safe_get_safe_set, safe_get_safe_set, safe_set_length,
      safe_set_length]
    have hl : ((y * w + x) * 3).toNat + 2 < img.pixels.length := by omega
    by_cases h0 : j = ((y * w + x) * 3).toNat
    · rw [if_neg (by omega), if_neg (by omega), if_pos ⟨h0, by omega⟩, if_pos h0]
    · by_cases h1 : j = ((y * w + x) * 3).toNat + 1
      · rw [if_neg (by omega), if_pos ⟨h1, by omega⟩, if_neg h0, if_pos h1]
      · by_cases h2 : j = ((y * w + x) * 3).toNat + 2
        · rw [if_pos ⟨h2, by omega⟩, if_neg h0, if_neg h1, if_pos h2]
        · rw [if_neg (by omega), if_neg (by omega), if_neg (by omega), if_neg h0, if_neg h1,
            if_neg h2]

/-- Effect of set on an in-range pixel, pixel by pixel: the pixel written reads back as the
colour, every other in-range pixel reads back as before. -/
theorem pixel_at_set (img : Image) (w h x y px py : Int) (c : RGB)
    (hbuf : img.is_rgb_buffer w h)
    (hx0 : 0 ≤ x) (hxw : x < w) (hy0 : 0 ≤ y) (hyh : y < h)
    (hpx0 : 0 ≤ px) (hpxw : px < w) (hpy0 : 0 ≤ py) (hpyh : py < h) :
    (img.set x y c).pixel_at px py = if px = x ∧ py = y then c else img.pixel_at px py := by
  obtain ⟨hbuf1, hget⟩ := set_in_range img w h x y c hbuf hx0 hxw hy0 hyh
  obtain ⟨hi0, hi2⟩ := pixel_index_bounds w h x y hx0 hxw hy0 hyh
  obtain ⟨hj0, hj2⟩ := pixel_index_bounds w h px py hpx0 hpxw hpy0 hpyh
  have hbytes := hbuf.2.2.2.2
  have e0 : toSizeT ((py * w + px) * 3) = ((py * w + px) * 3).toNat :=
    toSizeT_of_nonneg _ (by omega) (by omega)
  have e1 : toSizeT ((py * w + px) * 3 + 1) = ((py * w + px) * 3).toNat + 1 := by
    rw [toSizeT_of_nonneg _ (by omega) (by omega)]; omega
  have e2 : toSizeT ((py * w + px) * 3 + 2) = ((py * w + px) * 3).toNat + 2 := by
    rw [toSizeT_of_nonneg _ (by omega) (by omega)]; omega
  unfold Image.pixel_at
  simp only [hbuf1.1, hbuf1.2.2.1, hbuf.1, hbuf.2.2.1, e0, e1, e2, hget]
  by_cases hsame : px = x ∧ py = y
  · obtain ⟨rfl, rfl⟩ := hsame
    simp
  · have hne : py * w + px ≠ y * w + x := fun heq =>
      hsame (row_major_inj w x y px py hx0 hxw hpx0 hpxw heq)
    have hfar : ∀ a b : Nat, a ≤ 2 → b ≤ 2 →
        ((py * w + px) * 3).toNat + a ≠ ((y * w + x) * 3).toNat + b := by
      intro a b ha hb
      omega
    have f00 := hfar 0 0 (by norm_num) (by norm_num)
    have f01 := hfar 0 1 (by norm_num) (by norm_num)
    have f02 := hfar 0 2 (by norm_num) (by norm_num)
    have f10 := hfar 1 0 (by norm_num) (by norm_num)
    have f20 := hfar 2 0 (by norm_num) (by norm_num)
    simp only [Nat.add_zero] at f00 f01 f02 f10 f20
    simp only [if_neg hsame, if_neg f00, if_neg f01, if_neg f02, if_neg f10, if_neg f20,
      if_neg (hfar 1 1 (by norm_num) (by norm_num)), if_neg (hfar 1 2 (by norm_num) (by norm_num)),
      if_neg (hfar 2 1 (by norm_num) (by norm_num)), if_neg (hfar 2 2 (by norm_num) (by norm_num))]

/-- The image returned by the loop is the image obtained by calling set on the plotted points in
order. -/
theorem line_loop_image (dx dy sx sy x2 y2 : Int) (c : RGB) :
    ∀ (fuel : Nat) (img : Image) (x1 y1 err : Int) (r : Image × List (Int × Int)),
      Image.line_loop dx dy sx sy x2 y2 c fuel img x1 y1 err = some r →
      r.1 = r.2.foldl (fun im p => im.set p.1 p.2 c) img := by
  intro fuel
  induction fuel with
  | zero =>
    intro img x1 y1 err r h
    simp [Image.line_loop] at h
  | succ n ih =>
    intro img x1 y1 err r h
    by_cases hend : x1 = x2 ∧ y1 = y2
    · rw [line_loop_succ_of_eq _ _ _ _ _ _ _ _ _ _ _ _ hend] at h
      cases h
      rfl
    · rw [line_loop_succ_of_ne _ _ _ _ _ _ _ _ _ _ _ _ hend] at h
      simp only [Option.map_eq_some'] at h
      obtain ⟨r1, hr1, rfl⟩ := h
      exact ih _ _ _ _ r1 hr1

/-- The points plotted for a horizontal segment (dy = 0, so err stays at dx): with a steps left,
they are the points (x2 - sx * k, y2) for k from a down to 0. -/
theorem line_loop_horizontal (dx sx sy x2 y2 : Int) (c : RGB) (hsx : sx = 1 ∨ sx = -1) :
    ∀ (fuel : Nat) (img : Image) (x1 a : Int) (r : Image × List (Int × Int)),
      0 ≤ a → a ≤ dx → x1 = x2 - sx * a →
      Image.line_loop dx 0 sx sy x2 y2 c fuel img x1 y2 dx = some r →
      ∀ p : Int × Int, p ∈ r.2 ↔ ∃ k : Int, 0 ≤ k ∧ k ≤ a ∧ p = (x2 - sx * k, y2) := by
  intro fuel
  induction fuel with
  | zero =>
    intro img x1 a r _ _ _ h
    simp [Image.line_loop] at h
  | succ n ih =>
    intro img x1 a r ha hadx hx h p
    by_cases hend : x1 = x2 ∧ y2 = y2
    · rw [line_loop_succ_of_eq _ _ _ _ _ _ _ _ _ _ _ _ hend] at h
      cases h
      have ha0 : a = 0 := by
        have h1 := hend.1
        rcases hsx with rfl | rfl <;> omega
      subst ha0
      simp only [List.mem_singleton]
      constructor
      · rintro rfl
        exact ⟨0, le_refl _, le_refl _, by simp [hend.1]⟩
      · rintro ⟨k, hk0, hk1, rfl⟩
        have : k = 0 := by omega
        subst this
        simp [hend.1]
    · rw [line_loop_succ_of_ne _ _ _ _ _ _ _ _ _ _ _ _ hend] at h
      have ha1 : 1 ≤ a := by
        by_contra hlt
        apply hend
        have : a = 0 := by omega
        subst this
        exact ⟨by simpa using hx, rfl⟩
      have hxs : 2 * dx > -0 := by omega
      have hys : ¬ (2 * dx < dx) := by omega
      simp only [if_pos hxs, if_neg hys, sub_zero, Option.map_eq_some'] at h
      obtain ⟨r1, hr1, rfl⟩ := h
      have hrec := ih _ _ (a - 1) r1 (by omega) (by omega) (by rw [hx]; ring) hr1 p
      simp only [List.mem_cons, hrec]
      constructor
      · rintro (rfl | ⟨k, hk0, hk1, rfl⟩)
        · exact ⟨a, ha, le_refl _, by rw [hx]⟩
        · exact ⟨k, hk0, by omega, rfl⟩
      · rintro ⟨k, hk0, hk1, rfl⟩
        by_cases hka : k = a
        · left; rw [hka, hx]
        · right; exact ⟨k, hk0, by omega, rfl⟩

/-- The pixels plotted by Image.line for a horizontal segment are those of row y between the two
x coordinates. -/
theorem line_horizontal_points (fuel : Nat) (img : Image) (x1 x2 y : Int) (c : RGB)
    (r : Image × List (Int × Int)) (h : Image.line fuel img x1 y x2 y c = some r) :
    ∀ p : Int × Int, p ∈ r.2 ↔ p.2 = y ∧ min x1 x2 ≤ p.1 ∧ p.1 ≤ max x1 x2 := by
  unfold Image.line at h
  simp only [sub_self, Int.natAbs_zero, Nat.cast_zero, sub_zero] at h
  have hinit := (line_init_invariant x1 y x2 y).1
  have hpts := line_loop_horizontal ((x2 - x1).natAbs : Int) (if x1 < x2 then 1 else -1)
    (if y < y then 1 else -1) x2 y c (by split_ifs <;> simp) fuel img x1
    ((x2 - x1).natAbs : Int) r (by omega) (le_refl _) hinit h
  intro p
  rw [hpts p]
  obtain ⟨p1, p2⟩ := p
  simp only [Prod.mk.injEq]
  constructor
  · rintro ⟨k, hk0, hk1, rfl, rfl⟩
    refine ⟨rfl, ?_, ?_⟩ <;> split_ifs <;> omega
  · rintro ⟨rfl, hlo, hhi⟩
    refine ⟨if x1 < x2 then x2 - p1 else p1 - x2, ?_, ?_, ?_, rfl⟩ <;> split_ifs <;> omega

/-- A sequence of pixel writes at in-range points: afterwards an in-range pixel reads back as the
colour when it is one of the points, and as before otherwise. -/
theorem pixel_at_foldl_set (w h : Int) (c : RGB) (pts : List (Int × Int)) :
    ∀ (img : Image), img.is_rgb_buffer w h →
      (∀ p ∈ pts, (0 ≤ p.1 ∧ p.1 < w) ∧ (0 ≤ p.2 ∧ p.2 < h)) →
      (pts.foldl (fun im p => im.set p.1 p.2 c) img).is_rgb_buffer w h
      ∧ ∀ px py : Int, 0 ≤ px → px < w → 0 ≤ py → py < h →
          (pts.foldl (fun im p => im.set p.1 p.2 c) img).pixel_at px py
            = if (px, py) ∈ pts then c else img.pixel_at px py := by
  induction pts with
  | nil =>
    intro img hbuf _
    exact ⟨hbuf, fun px py _ _ _ _ => by simp⟩
  | cons q qs ih =>
    intro img hbuf hin
    have hq := hin q (List.mem_cons_self _ _)
    have hbuf1 := (set_in_range img w h q.1 q.2 c hbuf hq.1.1 hq.1.2 hq.2.1 hq.2.2).1
    obtain ⟨hbuf2, hpix⟩ := ih (img.set q.1 q.2 c) hbuf1
      (fun p hp => hin p (List.mem_cons_of_mem _ hp))
    refine ⟨hbuf2, fun px py hpx0 hpxw hpy0 hpyh => ?_⟩
    rw [List.foldl_cons, hpix px py hpx0 hpxw hpy0 hpyh,
      pixel_at_set img w h q.1 q.2 px py c hbuf hq.1.1 hq.1.2 hq.2.1 hq.2.2 hpx0 hpxw hpy0 hpyh]
    by_cases hmem : (px, py) ∈ qs
    · rw [if_pos hmem, if_pos (List.mem_cons_of_mem _ hmem)]
    · rw [if_neg hmem]
      by_cases hsame : px = q.1 ∧ py = q.2
      · rw [if_pos hsame, if_pos]
        rw [hsame.1, hsame.2]
        exact List.mem_cons_self _ _
      · rw [if_neg hsame, if_neg]
        intro hcon
        rcases List.mem_cons.mp hcon with heq | hcon
        · apply hsame
          rw [← heq]
          exact ⟨rfl, rfl⟩
        · exact hmem hcon

/-- The buffer built by Image(w, h, 3) is a 3-channel buffer in which every read gives 0. -/
theorem create_is_rgb_buffer (w h : Int) (hw : 0 ≤ w) (hh : 0 ≤ h) (hbytes : w * h * 3 < 2 ^ 31) :
    (Image.create w h 3).is_rgb_buffer w h
    ∧ ∀ px py : Int, (Image.create w h 3).pixel_at px py = { r := 0, g := 0, b := 0 } := by
  have h0 : 0 ≤ w * h * 3 := mul_nonneg (mul_nonneg hw hh) (by norm_num)
  refine ⟨⟨rfl, rfl, rfl, ?_, hbytes⟩, fun px py => ?_⟩
  · simp only [Image.create, List.length_replicate]
    rw [toSizeT_of_nonneg _ h0 (by omega)]
    omega
  · have hz : ∀ j : Nat, (Image.create w h 3).safe_get j = 0 := by
      intro j
      unfold Image.safe_get Image.create
      split_ifs with hj
      · rfl
      · simp only [List.getD_eq_getElem?_getD, List.getElem?_replicate]
        split_ifs <;> rfl
    unfold Image.pixel_at
    simp only [hz]

/-- C4: a horizontal segment from (x1, y) to (x2, y), with integer coordinates inside a
zero-initialised 3-channel buffer on which the float arithmetic is exact, drawn with no offset and
no flip: the call returns, the buffer keeps its dimensions, and afterwards an in-range pixel
(px, py) has the stroke colour exactly when py = y and min x1 x2 ≤ px ≤ max x1 x2, every other
pixel being still zero. -/
theorem C4_horizontal_segment {F : Type} (ops : FloatOps F) (w h x1 x2 y : Int) (c : RGB)
    (k : Nat)
    (hx1 : 0 ≤ x1 ∧ x1 < w) (hx2 : 0 ≤ x2 ∧ x2 < w) (hy : 0 ≤ y ∧ y < h)
    (hbytes : w * h * 3 < 2 ^ 31)
    (ex1 : ops.exact_at x1) (ex2 : ops.exact_at x2) (ey : ops.exact_at y) :
    ∃ d1 : TurtleDrawerInterface F,
      TurtleDrawerInterface.line ops ((x2 - x1).natAbs + 1 + k)
          (TurtleDrawerInterface.plain ops w h c)
          { x := ops.ofInt x1, y := ops.ofInt y } { x := ops.ofInt x2, y := ops.ofInt y }
        = some d1
      ∧ d1.image.is_rgb_buffer w h
      ∧ ∀ px py : Int, 0 ≤ px → px < w → 0 ≤ py → py < h →
          d1.image.pixel_at px py
            = if py = y ∧ min x1 x2 ≤ px ∧ px ≤ max x1 x2 then c
              else { r := 0, g := 0, b := 0 } := by
  obtain ⟨img1, pts, hrun, -, -, -, -, -⟩ := line_terminates (Image.create w h 3) x1 y x2 y c
  have hrun1 := hrun k
  simp only [sub_self, Int.natAbs_zero, Nat.add_zero] at hrun1
  have hpts := line_horizontal_points _ _ x1 x2 y c (img1, pts) hrun1
  have himg : img1 = pts.foldl (fun im p => im.set p.1 p.2 c) (Image.create w h 3) := by
    unfold Image.line at hrun1
    exact line_loop_image _ _ _ _ _ _ _ _ _ _ _ _ (img1, pts) hrun1
  obtain ⟨hbuf0, hzero⟩ := create_is_rgb_buffer w h (by omega) (by omega) hbytes
  have hin : ∀ p ∈ pts, (0 ≤ p.1 ∧ p.1 < w) ∧ (0 ≤ p.2 ∧ p.2 < h) := by
    intro p hp
    obtain ⟨hp2, hlo, hhi⟩ := (hpts p).mp hp
    refine ⟨⟨?_, ?_⟩, ?_, ?_⟩ <;> omega
  obtain ⟨hbuf1, hpix⟩ := pixel_at_foldl_set w h c pts (Image.create w h 3) hbuf0 hin
  refine ⟨{ TurtleDrawerInterface.plain ops w h c with image := img1 }, ?_, ?_, ?_⟩
  · unfold FloatOps.exact_at at ex1 ex2 ey
    unfold TurtleDrawerInterface.line TurtleDrawerInterface.plain
    simp only [Bool.false_eq_true, if_false, ex1, ex2, ey, hrun1]
  · rw [himg]
    exact hbuf1
  · intro px py hpx0 hpxw hpy0 hpyh
    show img1.pixel_at px py = _
    rw [himg, hpix px py hpx0 hpxw hpy0 hpyh, hzero]
    have hiff := hpts (px, py)
    simp only [] at hiff
    by_cases hmem : (px, py) ∈ pts
    · rw [if_pos hmem, if_pos (hiff.mp hmem)]
    · rw [if_neg hmem, if_neg (fun hc => hmem (hiff.mpr hc))]

/-- Witness of C4: the segment from (0, 0) to (10, 0) in a buffer of width 16 and height 4 plots
the 11 pixels x = 0..10 of row 0 and leaves every other pixel at zero. -/
theorem C4_horizontal_segment_witness :
    ∃ d1 : TurtleDrawerInterface Int,
      TurtleDrawerInterface.line gridOps 11 (TurtleDrawerInterface.plain gridOps 16 4 white)
          { x := 0, y := 0 } { x := 10, y := 0 } = some d1
      ∧ ∀ px py : Int, 0 ≤ px → px < 16 → 0 ≤ py → py < 4 →
          d1.image.pixel_at px py
            = if py = 0 ∧ 0 ≤ px ∧ px ≤ 10 then white else { r := 0, g := 0, b := 0 } := by
  obtain ⟨d1, hrun, -, hpix⟩ := C4_horizontal_segment gridOps 16 4 0 10 0 white 0
    (by decide) (by decide) (by decide) (by decide) rfl rfl rfl
  have hmin : min (0 : Int) 10 = 0 := by decide
  have hmax : max (0 : Int) 10 = 10 := by decide
  rw [hmin, hmax] at hpix
  exact ⟨d1, hrun, hpix⟩

/-! ## Further properties of the expander -/

theorem apply_rules_append (rules : Rules) (a b : List Char) :
    apply_rules rules (a ++ b) = apply_rules rules a ++ apply_rules rules b := by
  simp only [apply_rules_eq_flatten, List.map_append, List.flatten_append]

theorem expand_loop_append (rules : Rules) (n : Nat) :
    ∀ a b : List Char,
      expand_loop rules n (a ++ b) = expand_loop rules n a ++ expand_loop rules n b := by
  induction n with
  | zero => intro a b; rfl
  | succ k ih =>
    intro a b
    simp only [expand_loop]
    rw [apply_rules_append, ih]

theorem expand_loop_add (rules : Rules) (m n : Nat) :
    ∀ a : List Char,
      expand_loop rules (m + n) a = expand_loop rules n (expand_loop rules m a) := by
  induction m with
  | zero => intro a; simp [expand_loop]
  | succ k ih =>
    intro a
    rw [Nat.add_right_comm]
    simp only [expand_loop]
    exact ih _

/-- C19: rewriting is a homomorphism for concatenation: expanding a ++ b for n generations is
the expansion of a followed by the expansion of b; and expanding for m + n generations is
expanding for m generations and then expanding the result for n generations. -/
theorem C19_expand_homomorphism (rules : Rules) (a b : List Char) (m n : Nat) :
    expand rules (n : Int) (a ++ b) = expand rules (n : Int) a ++ expand rules (n : Int) b
    ∧ expand rules ((m : Int) + (n : Int)) a
        = expand rules (n : Int) (expand rules (m : Int) a) := by
  constructor
  · exact expand_loop_append rules _ a b
  · unfold expand
    have h : ((m : Int) + (n : Int)).toNat = m + n := by omega
    rw [h]
    exact expand_loop_add rules m n a

theorem find_self_rule (rules : Rules) (hself : ∀ k v, (k, v) ∈ rules → v = [k]) (c : Char) :
    (rules.find c).getD [c] = [c] := by
  induction rules with
  | nil => rfl
  | cons kv rest ih =>
    obtain ⟨k, v⟩ := kv
    unfold Rules.find
    by_cases hk : k = c
    · rw [if_pos hk]
      have := hself k v (List.mem_cons_self _ _)
      rw [this, hk]
      rfl
    · rw [if_neg hk]
      exact ih (fun k1 v1 h1 => hself k1 v1 (List.mem_cons_of_mem _ h1))

theorem apply_rules_self (rules : Rules) (hself : ∀ k v, (k, v) ∈ rules → v = [k])
    (a : List Char) : apply_rules rules a = a := by
  rw [apply_rules_eq_flatten]
  induction a with
  | nil => rfl
  | cons c cs ih =>
    simp only [List.map_cons, List.flatten_cons]
    rw [ih, find_self_rule rules hself c]
    rfl

theorem expand_loop_self (rules : Rules) (hself : ∀ k v, (k, v) ∈ rules → v = [k]) (n : Nat)
    (a : List Char) : expand_loop rules n a = a := by
  induction n with
  | zero => rfl
  | succ k ih =>
    simp only [expand_loop]
    rw [apply_rules_self rules hself a]
    exact ih

/-- C14: when every rule maps its symbol to the one-symbol string made of that symbol, expansion
for any number of generations returns the axiom unchanged. -/
theorem C14_self_rules_fixed_point (rules : Rules)
    (hself : ∀ k v, (k, v) ∈ rules → v = [k]) (iterations : Int) (a : List Char) :
    expand rules iterations a = a :=
  expand_loop_self rules hself _ a

/-- Witness of C14: the axiom F with the rule F -> F and 3 generations expands to F, and the
interpretation of the result emits a single segment. -/
theorem C14_self_rules_fixed_point_witness :
    expand self_rules 3 ['F'] = ['F']
    ∧ (run_turtle gridOps record_line [] (expand self_rules 3 ['F']) 90 1).map
        (fun st => st.sink)
      = .ok [({ x := 0, y := 0 }, { x := 0, y := -1 })] :=
  ⟨C14_self_rules_fixed_point self_rules (by simp [self_rules]) 3 ['F'], by rfl⟩

/-! ## Properties of the turtle -/

/-- C17: forward reports to the sink exactly one segment, from the position before the call to
the newly computed position, leaves the turtle at that end point and keeps the heading; right
and left add and subtract the angle to and from the heading, keep the position and leave the
sink alone (they do not take it). -/
theorem C17_turtle_operations {F σ : Type} (ops : FloatOps F) (line : σ → Vec2 F → Vec2 F → σ)
    (t : Turtle F) (sink : σ) (segs : List (Vec2 F × Vec2 F)) (distance theta : F) :
    ((t.forward ops line sink distance).2
        = line sink t.state.position (t.forward ops line sink distance).1.state.position
      ∧ (t.forward ops record_line segs distance).2
        = segs ++ [(t.state.position, (t.forward ops record_line segs distance).1.state.position)]
      ∧ (t.forward ops line sink distance).1.state.position
        = { x := ops.add t.state.position.x
                  (ops.mul distance (ops.cosf (ops.mulDeg2Rad t.state.angle))),
            y := ops.sub t.state.position.y
                  (ops.mul distance (ops.sinf (ops.mulDeg2Rad t.state.angle))) }
      ∧ (t.forward ops line sink distance).1.state.angle = t.state.angle)
    ∧ ((t.right ops theta).state.angle = ops.add t.state.angle theta
      ∧ (t.right ops theta).state.position = t.state.position)
    ∧ ((t.left ops theta).state.angle = ops.sub t.state.angle theta
      ∧ (t.left ops theta).state.position = t.state.position) :=
  ⟨⟨rfl, rfl, rfl, rfl⟩, ⟨rfl, rfl⟩, ⟨rfl, rfl⟩⟩

/-! ## Further properties of the path interpreter -/

theorem run_turtle_loop_cons {F σ : Type} (ops : FloatOps F) (line : σ → Vec2 F → Vec2 F → σ)
    (angle length : F) (c : Char) (rest : List Char) (st : Interp F σ) :
    run_turtle_loop ops line angle length (c :: rest) st
      = match run_turtle_step ops line angle length st c with
        | .error e => .error e
        | .ok st1 => run_turtle_loop ops line angle length rest st1 := rfl

theorem run_turtle_loop_append {F σ : Type} (ops : FloatOps F) (line : σ → Vec2 F → Vec2 F → σ)
    (angle length : F) (p q : List Char) :
    ∀ st : Interp F σ,
      run_turtle_loop ops line angle length (p ++ q) st
        = match run_turtle_loop ops line angle length p st with
          | .error e => .error e
          | .ok st1 => run_turtle_loop ops line angle length q st1 := by
  induction p with
  | nil => intro st; rfl
  | cons c rest ih =>
    intro st
    rw [List.cons_append, run_turtle_loop_cons, run_turtle_loop_cons]
    cases run_turtle_step ops line angle length st c with
    | error e => rfl
    | ok st1 => exact ih st1

/-- The loop body on a character that is not F leaves the sink as it is. -/
theorem run_turtle_step_sink {F σ : Type} (ops : FloatOps F) (line : σ → Vec2 F → Vec2 F → σ)
    (angle length : F) (st st1 : Interp F σ) (c : Char) (hc : c ≠ 'F')
    (h : run_turtle_step ops line angle length st c = .ok st1) : st1.sink = st.sink := by
  unfold run_turtle_step at h
  rw [if_neg hc] at h
  split_ifs at h
  · cases h; rfl
  · cases h; rfl
  · cases h; rfl
  · cases hst : st.stack with
    | nil => rw [hst] at h; cases h
    | cons top rest => rw [hst] at h; cases h; rfl
  · cases h; rfl

/-- The loop on a string without F leaves the sink as it is. -/
theorem run_turtle_loop_sink {F σ : Type} (ops : FloatOps F) (line : σ → Vec2 F → Vec2 F → σ)
    (angle length : F) (s : List Char) (hs : 'F' ∉ s) :
    ∀ st st1 : Interp F σ,
      run_turtle_loop ops line angle length s st = .ok st1 → st1.sink = st.sink := by
  induction s with
  | nil =>
    intro st st1 h
    cases h
    rfl
  | cons c rest ih =>
    intro st st1 h
    unfold run_turtle_loop at h
    have hc : c ≠ 'F' := fun hcF => hs (hcF ▸ List.mem_cons_self _ _)
    cases hstep : run_turtle_step ops line angle length st c with
    | error e => rw [hstep] at h; cases h
    | ok st2 =>
      rw [hstep] at h
      rw [ih (fun hmem => hs (List.mem_cons_of_mem _ hmem)) st2 st1 h,
        run_turtle_step_sink ops line angle length st st2 c hc hstep]

/-- A string that never pops the empty stack is interpreted to the end. -/
theorem run_turtle_ok_of_never_pops {F σ : Type} (ops : FloatOps F)
    (line : σ → Vec2 F → Vec2 F → σ) (sink : σ) (angle length : F) (s : List Char)
    (h : NeverPopsEmpty s) :
    ∃ st : Interp F σ, run_turtle ops line sink s angle length = .ok st := by
  unfold NeverPopsEmpty at h
  obtain ⟨d, hd⟩ := Option.isSome_iff_exists.mp h
  obtain ⟨st, hrun, -⟩ := run_turtle_loop_depth ops line angle length s
    { turtle := Turtle.init ops, stack := [], sink := sink } d hd
  exact ⟨st, hrun⟩

/-! ## Degenerate paths -/

/-- C12, as stated, fails on two counts. On the empty string the collector's min is the finite
number FLT_MAX = 340282346638528859811704183484516925440 and its max is -FLT_MAX, the values
its constructor stores, not the infinities. And on the string made of a single closing bracket,
which has no forward command, the pass reads the top of the empty stack and no collector state
is defined after it. -/
theorem C12_counterexample :
    (run_turtle gridOps TurtleTestInterface.line (TurtleTestInterface.init gridOps) [] 90 5).map
        (fun st => (st.sink.min_point, st.sink.max_point))
      = .ok (({ x := 340282346638528859811704183484516925440,
                y := 340282346638528859811704183484516925440 } : Vec2 Int),
             ({ x := -340282346638528859811704183484516925440,
                y := -340282346638528859811704183484516925440 } : Vec2 Int))
    ∧ 'F' ∉ [']']
    ∧ (run_turtle gridOps TurtleTestInterface.line (TurtleTestInterface.init gridOps) [']'] 90 5).map
        (fun st => (st.sink.min_point, st.sink.max_point))
      = .error UB.top_of_empty_stack := by
  refine ⟨rfl, by decide, rfl⟩

/-- A pass over a string without forward command that never pops the empty stack completes and
leaves the collector as constructed. -/
theorem collector_no_forward {F : Type} [LinearOrder F] (ops : FloatOps F)
    (angle length : F) (s : List Char) (hF : 'F' ∉ s) (hpop : NeverPopsEmpty s) :
    ∃ st : Interp F (TurtleTestInterface F),
      run_turtle ops TurtleTestInterface.line (TurtleTestInterface.init ops) s angle length
        = .ok st
      ∧ st.sink.min_point = { x := ops.FLT_MAX, y := ops.FLT_MAX }
      ∧ st.sink.max_point = { x := ops.neg ops.FLT_MAX, y := ops.neg ops.FLT_MAX } := by
  obtain ⟨st, hrun⟩ := run_turtle_ok_of_never_pops ops TurtleTestInterface.line
    (TurtleTestInterface.init ops) angle length s hpop
  have hsink := run_turtle_loop_sink ops TurtleTestInterface.line angle length s hF _ st hrun
  refine ⟨st, hrun, ?_, ?_⟩
  · rw [hsink]; rfl
  · rw [hsink]; rfl

/-- C12, amended: for every string with no forward command whose interpretation never pops the
empty stack, the interpretation pass completes and leaves the collector's min at FLT_MAX and
its max at -FLT_MAX on both axes. -/
theorem C12_no_forward_keeps_sentinels {F : Type} [LinearOrder F] (ops : FloatOps F)
    (angle length : F) (s : List Char) (hF : 'F' ∉ s) (hpop : NeverPopsEmpty s) :
    ∃ st : Interp F (TurtleTestInterface F),
      run_turtle ops TurtleTestInterface.line (TurtleTestInterface.init ops) s angle length
        = .ok st
      ∧ st.sink.min_point = { x := ops.FLT_MAX, y := ops.FLT_MAX }
      ∧ st.sink.max_point = { x := ops.neg ops.FLT_MAX, y := ops.neg ops.FLT_MAX } :=
  collector_no_forward ops angle length s hF hpop

/-- Witness of the amended C12 on a string of turns and a matched pair of brackets. -/
theorem C12_no_forward_keeps_sentinels_witness :
    ∃ st : Interp Int (TurtleTestInterface Int),
      run_turtle gridOps TurtleTestInterface.line (TurtleTestInterface.init gridOps)
          ['X', '+', '[', '-', ']'] 90 5 = .ok st
      ∧ st.sink.min_point = { x := gridOps.FLT_MAX, y := gridOps.FLT_MAX }
      ∧ st.sink.max_point = { x := gridOps.neg gridOps.FLT_MAX, y := gridOps.neg gridOps.FLT_MAX } :=
  C12_no_forward_keeps_sentinels gridOps 90 5 ['X', '+', '[', '-', ']'] (by decide) (by decide)

theorem expand_loop_nil (rules : Rules) (n : Nat) : expand_loop rules n [] = [] := by
  induction n with
  | zero => rfl
  | succ k ih => exact ih

/-- The result of render_l_system when the expanded string has no forward command and never pops
the empty stack: no error, and an image allocated with the width and height computed from the
two sentinels. -/
theorem render_no_forward {F : Type} [LinearOrder F] (rops : RenderOps F) (fuel : Nat)
    (ax : List Char) (rules : Rules) (iterations : Int) (angle length : F)
    (hF : 'F' ∉ expand rules iterations ax) (hpop : NeverPopsEmpty (expand rules iterations ax)) :
    render_l_system rops fuel ax rules iterations angle length
      = .ok (some (Image.create
          (rops.toInt (rops.ceilf (rops.fabs (rops.sub (rops.neg rops.FLT_MAX) rops.FLT_MAX))))
          (rops.toInt (rops.ceilf (rops.fabs (rops.sub (rops.neg rops.FLT_MAX) rops.FLT_MAX))))
          3)) := by
  obtain ⟨st, hrun, hmin, hmax⟩ :=
    collector_no_forward rops.toFloatOps angle length (expand rules iterations ax) hF hpop
  obtain ⟨st2, hrun2⟩ := run_turtle_ok_of_never_pops rops.toFloatOps
    (TurtleDrawerInterface.line_sink rops.toFloatOps fuel)
    (some (TurtleDrawerInterface.mk
      (Image.create
        (rops.toInt (rops.ceilf (rops.fabs (rops.sub (rops.neg rops.FLT_MAX) rops.FLT_MAX))))
        (rops.toInt (rops.ceilf (rops.fabs (rops.sub (rops.neg rops.FLT_MAX) rops.FLT_MAX))))
        3)
      (RGB.mk 255 255 255)
      (Vec2.mk (rops.neg rops.FLT_MAX) (rops.neg rops.FLT_MAX))
      false))
    angle length (expand rules iterations ax) hpop
  have hsink2 := run_turtle_loop_sink rops.toFloatOps
    (TurtleDrawerInterface.line_sink rops.toFloatOps fuel) angle length
    (expand rules iterations ax) hF _ st2 hrun2
  unfold render_l_system
  simp only [hrun, hmin, hmax, hrun2, hsink2]
  rfl

/-- C11: render_l_system does not detect the empty path. For the empty axiom (whatever the rules,
the generation count, the angle and the length) and for the axiom X with 0 generations, it
reports no error: it computes width and height from the sentinels -FLT_MAX and FLT_MAX and
returns the image allocated with them. -/
theorem C11_empty_path_not_detected {F : Type} [LinearOrder F] (rops : RenderOps F) (fuel : Nat)
    (rules : Rules) (iterations : Int) (angle length : F) :
    render_l_system rops fuel [] rules iterations angle length
      = .ok (some (Image.create
          (rops.toInt (rops.ceilf (rops.fabs (rops.sub (rops.neg rops.FLT_MAX) rops.FLT_MAX))))
          (rops.toInt (rops.ceilf (rops.fabs (rops.sub (rops.neg rops.FLT_MAX) rops.FLT_MAX))))
          3))
    ∧ render_l_system rops fuel ['X'] default_rules 0 angle length
      = .ok (some (Image.create
          (rops.toInt (rops.ceilf (rops.fabs (rops.sub (rops.neg rops.FLT_MAX) rops.FLT_MAX))))
          (rops.toInt (rops.ceilf (rops.fabs (rops.sub (rops.neg rops.FLT_MAX) rops.FLT_MAX))))
          3)) := by
  constructor
  · apply render_no_forward
    · unfold expand
      rw [expand_loop_nil]
      exact List.not_mem_nil _
    · unfold expand
      rw [expand_loop_nil]
      rfl
  · apply render_no_forward
    · decide
    · decide

/-! ## Branches -/

/-- Interpreting a string whose brackets never close more than was opened, above any stack: with
a prefix pre already pushed, the run ends with some new prefix in place of pre, of the length
given by the bracket depth, and neither the turtle, nor the new prefix, nor the sink depend on
the stack below. -/
theorem run_turtle_loop_above {F σ : Type} (ops : FloatOps F) (line : σ → Vec2 F → Vec2 F → σ)
    (angle length : F) (s : List Char) :
    ∀ (d : Nat) (t : Turtle F) (pre : List (Turtle F)) (sink : σ),
      bracket_depth pre.length s = some d →
      ∃ (t1 : Turtle F) (pre1 : List (Turtle F)) (sink1 : σ),
        pre1.length = d
        ∧ ∀ below : List (Turtle F),
            run_turtle_loop ops line angle length s
                { turtle := t, stack := pre ++ below, sink := sink }
              = .ok { turtle := t1, stack := pre1 ++ below, sink := sink1 } := by
  induction s with
  | nil =>
    intro d t pre sink h
    simp only [bracket_depth, Option.some.injEq] at h
    exact ⟨t, pre, sink, h, fun below => rfl⟩
  | cons c rest ih =>
    intro d t pre sink h
    unfold bracket_depth at h
    by_cases ho : c = '['
    · subst ho
      rw [if_pos rfl] at h
      obtain ⟨t1, pre1, sink1, hlen, hrun⟩ := ih d t (t :: pre) sink h
      exact ⟨t1, pre1, sink1, hlen, fun below => hrun below⟩
    by_cases hc : c = ']'
    · subst hc
      rw [if_neg (by decide), if_pos rfl] at h
      cases pre with
      | nil => simp at h
      | cons top more =>
        simp only [List.length_cons] at h
        obtain ⟨t1, pre1, sink1, hlen, hrun⟩ := ih d top more sink h
        exact ⟨t1, pre1, sink1, hlen, fun below => hrun below⟩
    rw [if_neg ho, if_neg hc] at h
    by_cases hF : c = 'F'
    · subst hF
      obtain ⟨t1, pre1, sink1, hlen, hrun⟩ :=
        ih d (t.forward ops line sink length).1 pre (t.forward ops line sink length).2 h
      exact ⟨t1, pre1, sink1, hlen, fun below => hrun below⟩
    by_cases hp : c = '+'
    · subst hp
      obtain ⟨t1, pre1, sink1, hlen, hrun⟩ := ih d (t.right ops angle) pre sink h
      exact ⟨t1, pre1, sink1, hlen, fun below => hrun below⟩
    by_cases hm : c = '-'
    · subst hm
      obtain ⟨t1, pre1, sink1, hlen, hrun⟩ := ih d (t.left ops angle) pre sink h
      exact ⟨t1, pre1, sink1, hlen, fun below => hrun below⟩
    · obtain ⟨t1, pre1, sink1, hlen, hrun⟩ := ih d t pre sink h
      refine ⟨t1, pre1, sink1, hlen, fun below => ?_⟩
      rw [run_turtle_loop_cons]
      simp only [run_turtle_step, if_neg hF, if_neg hp, if_neg hm, if_neg ho, if_neg hc]
      exact hrun below

/-- C16: for a balanced string w, from every turtle state, stack and sink, interpreting w
between an opening and a closing bracket ends with the turtle and the stack as they were before
the opening bracket, and with the sink that interpreting w alone from that state leaves (the
branch emits exactly the segments of w). -/
theorem C16_branch_restores_state {F σ : Type} (ops : FloatOps F)
    (line : σ → Vec2 F → Vec2 F → σ) (angle length : F) (w : List Char) (hw : WellFormed w)
    (st : Interp F σ) :
    ∃ stw : Interp F σ,
      run_turtle_loop ops line angle length w st = .ok stw
      ∧ stw.stack = st.stack
      ∧ run_turtle_loop ops line angle length ('[' :: (w ++ [']'])) st
          = .ok { turtle := st.turtle, stack := st.stack, sink := stw.sink } := by
  obtain ⟨t1, pre1, sink1, hlen, hrun⟩ :=
    run_turtle_loop_above ops line angle length w 0 st.turtle [] st.sink hw
  have hnil : pre1 = [] := List.length_eq_zero.mp hlen
  subst hnil
  refine ⟨{ turtle := t1, stack := st.stack, sink := sink1 }, hrun st.stack, rfl, ?_⟩
  rw [run_turtle_loop_cons]
  simp only [run_turtle_step, Char.reduceEq, if_false, if_true]
  rw [run_turtle_loop_append]
  have h2 := hrun (st.turtle :: st.stack)
  simp only [List.nil_append] at h2
  rw [h2]
  rfl

/-- Witness of C16 on the branch [+F[F]-F] from the initial state with the recording sink. -/
theorem C16_branch_restores_state_witness :
    ∃ stw : Interp Int (List (Vec2 Int × Vec2 Int)),
      run_turtle_loop gridOps record_line 90 5 "+F[F]-F".toList
          { turtle := Turtle.init gridOps, stack := [], sink := [] } = .ok stw
      ∧ stw.stack = []
      ∧ run_turtle_loop gridOps record_line 90 5 ('[' :: ("+F[F]-F".toList ++ [']']))
          { turtle := Turtle.init gridOps, stack := [], sink := [] }
          = .ok { turtle := Turtle.init gridOps, stack := [], sink := stw.sink } :=
  C16_branch_restores_state gridOps record_line 90 5 "+F[F]-F".toList (by decide)
    { turtle := Turtle.init gridOps, stack := [], sink := [] }

/-! ## Segments and forward commands -/

/-- The loop body with the recording sink: a forward command appends one segment, every other
character none. -/
theorem run_turtle_step_record {F : Type} (ops : FloatOps F) (angle length : F)
    (st st1 : Interp F (List (Vec2 F × Vec2 F))) (c : Char)
    (h : run_turtle_step ops record_line angle length st c = .ok st1) :
    ∃ new : List (Vec2 F × Vec2 F),
      st1.sink = st.sink ++ new ∧ new.length = [c].count 'F' := by
  by_cases hc : c = 'F'
  · subst hc
    simp only [run_turtle_step, if_true, Except.ok.injEq] at h
    subst h
    exact ⟨[(st.turtle.state.position,
      (st.turtle.forward ops record_line st.sink length).1.state.position)], rfl, rfl⟩
  · refine ⟨[], ?_, ?_⟩
    · rw [run_turtle_step_sink ops record_line angle length st st1 c hc h]
      simp
    · simp [List.count_cons, hc]

/-- The loop with the recording sink appends as many segments as the string has forward
commands. -/
theorem run_turtle_loop_record {F : Type} (ops : FloatOps F) (angle length : F) (s : List Char) :
    ∀ st st1 : Interp F (List (Vec2 F × Vec2 F)),
      run_turtle_loop ops record_line angle length s st = .ok st1 →
      ∃ new : List (Vec2 F × Vec2 F),
        st1.sink = st.sink ++ new ∧ new.length = s.count 'F' := by
  induction s with
  | nil =>
    intro st st1 h
    cases h
    exact ⟨[], by simp, rfl⟩
  | cons c rest ih =>
    intro st st1 h
    rw [run_turtle_loop_cons] at h
    cases hstep : run_turtle_step ops record_line angle length st c with
    | error e => rw [hstep] at h; cases h
    | ok st2 =>
      rw [hstep] at h
      obtain ⟨new1, hs1, hl1⟩ := run_turtle_step_record ops angle length st st2 c hstep
      obtain ⟨new2, hs2, hl2⟩ := ih st2 st1 h
      refine ⟨new1 ++ new2, ?_, ?_⟩
      · rw [hs2, hs1, List.append_assoc]
      · have hcount : (c :: rest).count 'F' = [c].count 'F' + rest.count 'F' := by
          rw [← List.count_append]
          rfl
        rw [List.length_append, hl1, hl2, hcount]

/-- C18: for a string that never pops the empty stack, run_turtle emits as many segments as the
string has occurrences of F, and in their order: after every initial part p of the string the
segments emitted so far are as many as the occurrences of F in p, and they are the first
segments of the whole run. -/
theorem C18_one_segment_per_forward {F : Type} (ops : FloatOps F) (angle length : F)
    (s : List Char) (h : NeverPopsEmpty s) :
    ∃ st : Interp F (List (Vec2 F × Vec2 F)),
      run_turtle ops record_line [] s angle length = .ok st
      ∧ st.sink.length = s.count 'F'
      ∧ ∀ p q : List Char, s = p ++ q →
          ∃ stp : Interp F (List (Vec2 F × Vec2 F)),
            run_turtle ops record_line [] p angle length = .ok stp
            ∧ stp.sink.length = p.count 'F'
            ∧ stp.sink <+: st.sink := by
  obtain ⟨st, hrun⟩ := run_turtle_ok_of_never_pops ops record_line [] angle length s h
  obtain ⟨new, hsink, hlen⟩ := run_turtle_loop_record ops angle length s _ st hrun
  simp only [List.nil_append] at hsink
  refine ⟨st, hrun, by rw [hsink, hlen], fun p q hpq => ?_⟩
  subst hpq
  unfold run_turtle at hrun
  rw [run_turtle_loop_append] at hrun
  cases hp : run_turtle_loop ops record_line angle length p
      { turtle := Turtle.init ops, stack := [], sink := [] } with
  | error e => rw [hp] at hrun; cases hrun
  | ok stp =>
    rw [hp] at hrun
    obtain ⟨newp, hsp, hlp⟩ := run_turtle_loop_record ops angle length p _ stp hp
    obtain ⟨newq, hsq, -⟩ := run_turtle_loop_record ops angle length q stp st hrun
    simp only [List.nil_append] at hsp
    refine ⟨stp, hp, by rw [hsp, hlp], ?_⟩
    rw [hsq]
    exact List.prefix_append _ _

/-- Witness of C18 on the replacement string of the default grammar: 3 segments. -/
theorem C18_one_segment_per_forward_witness :
    ∃ st : Interp Int (List (Vec2 Int × Vec2 Int)),
      run_turtle gridOps record_line [] "F-[[X]+X]+F[+FX]-X".toList 90 5 = .ok st
      ∧ st.sink.length = 3 := by
  obtain ⟨st, hrun, hlen, -⟩ :=
    C18_one_segment_per_forward gridOps 90 5 "F-[[X]+X]+F[+FX]-X".toList (by decide)
  exact ⟨st, hrun, hlen⟩

/-! ## The bytes written by set -/

theorem safe_set_of_lt (img : Image) (index c : Nat) (h : index < img.pixels.length) :
    img.safe_set index c = { img with pixels := img.pixels.set index c } := by
  unfold Image.safe_set
  rw [if_neg (by omega)]

/-- The image after set on an in-range pixel of a 3-channel buffer: the byte vector with three
bytes replaced, everything else as before. -/
theorem set_in_range_eq (img : Image) (w h x y : Int) (c : RGB) (hbuf : img.is_rgb_buffer w h)
    (hx0 : 0 ≤ x) (hxw : x < w) (hy0 : 0 ≤ y) (hyh : y < h) :
    (3 * (y * w + x)).toNat + 2 < img.pixels.length
    ∧ img.set x y c
      = { img with
          pixels := ((img.pixels.set (3 * (y * w + x)).toNat c.r).set
            ((3 * (y * w + x)).toNat + 1) c.g).set ((3 * (y * w + x)).toNat + 2) c.b } := by
  obtain ⟨hw, hh, hch, hlen, hbytes⟩ := hbuf
  obtain ⟨hi0, hi2⟩ := pixel_index_bounds w h x y hx0 hxw hy0 hyh
  have hcomm : (y * w + x) * 3 = 3 * (y * w + x) := by ring
  rw [hcomm] at hi0 hi2
  have hl : (3 * (y * w + x)).toNat + 2 < img.pixels.length := by omega
  have e0 : toSizeT ((y * w + x) * 3) = (3 * (y * w + x)).toNat := by
    rw [hcomm]
    exact toSizeT_of_nonneg _ (by omega) (by omega)
  have e1 : toSizeT ((y * w + x) * 3 + 1) = (3 * (y * w + x)).toNat + 1 := by
    rw [hcomm, toSizeT_of_nonneg _ (by omega) (by omega)]; omega
  have e2 : toSizeT ((y * w + x) * 3 + 2) = (3 * (y * w + x)).toNat + 2 := by
    rw [hcomm, toSizeT_of_nonneg _ (by omega) (by omega)]; omega
  refine ⟨hl, ?_⟩
  have hchain : img.set x y c
      = ((img.safe_set (3 * (y * w + x)).toNat c.r).safe_set ((3 * (y * w + x)).toNat + 1)
          c.g).safe_set ((3 * (y * w + x)).toNat + 2) c.b := by
    unfold Image.set
    simp only [hw, hch, e0, e1, e2]
    rfl
  have h1 : (3 * (y * w + x)).toNat + 1 < (img.pixels.set (3 * (y * w + x)).toNat c.r).length := by
    rw [List.length_set]; omega
  have h2 : (3 * (y * w + x)).toNat + 2
      < ((img.pixels.set (3 * (y * w + x)).toNat c.r).set
          ((3 * (y * w + x)).toNat + 1) c.g).length := by
    rw [List.length_set, List.length_set]; omega
  rw [hchain, safe_set_of_lt img _ _ (by omega),
    safe_set_of_lt (Image.mk img.width img.height img.channels
      (img.pixels.set (3 * (y * w + x)).toNat c.r)) _ _ h1,
    safe_set_of_lt (Image.mk img.width img.height img.channels
      ((img.pixels.set (3 * (y * w + x)).toNat c.r).set
        ((3 * (y * w + x)).toNat + 1) c.g)) _ _ h2]

/-- C13: in a 3-channel buffer of width * height * 3 bytes, set(x, y, c) on an in-range pixel
writes c.r, c.g and c.b to the bytes at the row-major indices 3 * (y * width + x), + 1 and + 2,
which lie inside the byte array, and leaves every other byte, the size of the array, the width,
the height and the channel count unchanged. -/
theorem C13_set_writes_three_bytes (img : Image) (w h x y : Int) (c : RGB)
    (hbuf : img.is_rgb_buffer w h)
    (hx0 : 0 ≤ x) (hxw : x < w) (hy0 : 0 ≤ y) (hyh : y < h) :
    ((img.set x y c).pixels[(3 * (y * w + x)).toNat]? = some c.r
      ∧ (img.set x y c).pixels[(3 * (y * w + x)).toNat + 1]? = some c.g
      ∧ (img.set x y c).pixels[(3 * (y * w + x)).toNat + 2]? = some c.b)
    ∧ (∀ j : Nat, j ≠ (3 * (y * w + x)).toNat → j ≠ (3 * (y * w + x)).toNat + 1 →
        j ≠ (3 * (y * w + x)).toNat + 2 → (img.set x y c).pixels[j]? = img.pixels[j]?)
    ∧ (img.set x y c).pixels.length = img.pixels.length
    ∧ (img.set x y c).width = img.width
    ∧ (img.set x y c).height = img.height
    ∧ (img.set x y c).channels = img.channels := by
  obtain ⟨hl, heq⟩ := set_in_range_eq img w h x y c hbuf hx0 hxw hy0 hyh
  rw [heq]
  refine ⟨⟨?_, ?_, ?_⟩, fun j h0 h1 h2 => ?_, ?_, rfl, rfl, rfl⟩
  · show (List.set _ _ _)[_]? = _
    rw [List.getElem?_set_ne (by omega), List.getElem?_set_ne (by omega),
      List.getElem?_set_self (by omega)]
  · show (List.set _ _ _)[_]? = _
    rw [List.getElem?_set_ne (by omega),
      List.getElem?_set_self (by rw [List.length_set]; omega)]
  · show (List.set _ _ _)[_]? = _
    rw [List.getElem?_set_self (by rw [List.length_set, List.length_set]; omega)]
  · show (List.set _ _ _)[_]? = _
    rw [List.getElem?_set_ne (fun e => h2 e.symm), List.getElem?_set_ne (fun e => h1 e.symm),
      List.getElem?_set_ne (fun e => h0 e.symm)]
  · show (List.set _ _ _).length = _
    rw [List.length_set, List.length_set, List.length_set]

/-- Witness of C13: pixel (1, 1) of a 2 x 2 buffer occupies the bytes 9, 10 and 11. -/
theorem C13_set_writes_three_bytes_witness :
    ((Image.create 2 2 3).set 1 1 white).pixels[(3 * ((1 : Int) * 2 + 1)).toNat]? = some 255
    ∧ ((Image.create 2 2 3).set 1 1 white).pixels
        = [0, 0, 0, 0, 0, 0, 0, 0, 0, 255, 255, 255] :=
  ⟨(C13_set_writes_three_bytes (Image.create 2 2 3) 2 2 1 1 white
      (by unfold Image.is_rgb_buffer; decide)
      (by decide) (by decide) (by decide) (by decide)).1.1,
   by decide⟩

/-! ## The points plotted by the line rasteriser -/

/-- One iteration that does not break keeps the invariant: an x step lowers a by one, a y step
lowers b by one, and at least one of the two steps is taken. -/
theorem line_step_inv (dx dy sx sy x2 y2 x1 y1 err a b : Int)
    (hinv : LineInv dx dy sx sy x2 y2 x1 y1 err a b) (hne : ¬ (x1 = x2 ∧ y1 = y2)) :
    LineInv dx dy sx sy x2 y2
        (if 2 * err > -dy then x1 + sx else x1) (if 2 * err < dx then y1 + sy else y1)
        (if 2 * err < dx then (if 2 * err > -dy then err - dy else err) + dx
          else if 2 * err > -dy then err - dy else err)
        (if 2 * err > -dy then a - 1 else a) (if 2 * err < dx then b - 1 else b)
    ∧ (2 * err > -dy ∨ 2 * err < dx) := by
  obtain ⟨⟨ha, hadx⟩, ⟨hb, hbdy⟩, hx, hy, herr⟩ := hinv
  have hab : a ≠ 0 ∨ b ≠ 0 := by
    by_contra hcon
    push_neg at hcon
    apply hne
    rw [hx, hy, hcon.1, hcon.2]
    simp
  have hP : 0 ≤ a * dy := mul_nonneg ha (by omega)
  have hQ : 0 ≤ b * dx := mul_nonneg hb (by omega)
  have hxstep : 2 * err > -dy → 1 ≤ a := by
    intro h
    by_contra hlt
    have ha0 : a = 0 := by omega
    have hb1 : 1 ≤ b := by omega
    have : dx ≤ b * dx := by nlinarith
    rw [ha0] at herr
    simp only [zero_mul, add_zero] at herr
    omega
  have hystep : 2 * err < dx → 1 ≤ b := by
    intro h
    by_contra hlt
    have hb0 : b = 0 := by omega
    have ha1 : 1 ≤ a := by omega
    have : dy ≤ a * dy := by nlinarith
    rw [hb0] at herr
    simp only [zero_mul, sub_zero] at herr
    omega
  by_cases hxs : 2 * err > -dy
  · have ha1 := hxstep hxs
    by_cases hys : 2 * err < dx
    · have hb1 := hystep hys
      simp only [if_pos hxs, if_pos hys]
      exact ⟨⟨⟨by omega, by omega⟩, ⟨by omega, by omega⟩, by rw [hx]; ring, by rw [hy]; ring,
        by rw [herr]; ring⟩, Or.inl hxs⟩
    · simp only [if_pos hxs, if_neg hys]
      exact ⟨⟨⟨by omega, by omega⟩, ⟨hb, hbdy⟩, by rw [hx]; ring, hy, by rw [herr]; ring⟩,
        Or.inl hxs⟩
  · by_cases hys : 2 * err < dx
    · have hb1 := hystep hys
      simp only [if_neg hxs, if_pos hys]
      exact ⟨⟨⟨ha, hadx⟩, ⟨by omega, by omega⟩, hx, by rw [hy]; ring, by rw [herr]; ring⟩,
        Or.inr hys⟩
    · exfalso
      omega

/-- The trace of the loop: it starts at the current point, two successive points are one unit
step apart, and every point is (x2 - sx * i, y2 - sy * j) for some i and j between 0 and the
numbers of steps left. -/
theorem line_loop_trace (dx dy sx sy x2 y2 : Int) (c : RGB)
    (hsx : sx = 1 ∨ sx = -1) (hsy : sy = 1 ∨ sy = -1) :
    ∀ (fuel : Nat) (img : Image) (x1 y1 err a b : Int) (r : Image × List (Int × Int)),
      LineInv dx dy sx sy x2 y2 x1 y1 err a b →
      Image.line_loop dx dy sx sy x2 y2 c fuel img x1 y1 err = some r →
      r.2.head? = some (x1, y1)
      ∧ List.Chain' unit_step r.2
      ∧ ∀ p ∈ r.2, ∃ i j : Int,
          (0 ≤ i ∧ i ≤ a) ∧ (0 ≤ j ∧ j ≤ b) ∧ p = (x2 - sx * i, y2 - sy * j) := by
  intro fuel
  induction fuel with
  | zero =>
    intro img x1 y1 err a b r _ h
    simp [Image.line_loop] at h
  | succ n ih =>
    intro img x1 y1 err a b r hinv h
    have hself : ∃ i j : Int,
        (0 ≤ i ∧ i ≤ a) ∧ (0 ≤ j ∧ j ≤ b) ∧ (x1, y1) = (x2 - sx * i, y2 - sy * j) :=
      ⟨a, b, ⟨hinv.1.1, le_refl _⟩, ⟨hinv.2.1.1, le_refl _⟩, by rw [hinv.2.2.1, hinv.2.2.2.1]⟩
    by_cases hend : x1 = x2 ∧ y1 = y2
    · rw [line_loop_succ_of_eq _ _ _ _ _ _ _ _ _ _ _ _ hend] at h
      cases h
      refine ⟨rfl, List.chain'_singleton _, fun p hp => ?_⟩
      rw [List.mem_singleton] at hp
      rw [hp]
      exact hself
    · rw [line_loop_succ_of_ne _ _ _ _ _ _ _ _ _ _ _ _ hend] at h
      simp only [Option.map_eq_some'] at h
      obtain ⟨r1, hr1, rfl⟩ := h
      obtain ⟨hinv1, hprog⟩ := line_step_inv dx dy sx sy x2 y2 x1 y1 err a b hinv hend
      obtain ⟨hhead, hchain, hmem⟩ := ih _ _ _ _ _ _ r1 hinv1 hr1
      refine ⟨rfl, ?_, fun p hp => ?_⟩
      · refine List.Chain'.cons' hchain (fun q hq => ?_)
        rw [hhead] at hq
        simp only [Option.mem_def, Option.some.injEq] at hq
        subst hq
        refine ⟨?_, ?_, ?_⟩
        · show ((if 2 * err > -dy then x1 + sx else x1) - x1).natAbs ≤ 1
          split_ifs <;> rcases hsx with rfl | rfl <;> simp
        · show ((if 2 * err < dx then y1 + sy else y1) - y1).natAbs ≤ 1
          split_ifs <;> rcases hsy with rfl | rfl <;> simp
        · intro heq
          simp only [Prod.mk.injEq] at heq
          obtain ⟨h1, h2⟩ := heq
          rcases hprog with hp1 | hp1
          · rw [if_pos hp1] at h1
            rcases hsx with rfl | rfl <;> omega
          · rw [if_pos hp1] at h2
            rcases hsy with rfl | rfl <;> omega
      · rcases List.mem_cons.mp hp with rfl | hp
        · exact hself
        · obtain ⟨i, j, hi, hj, hpij⟩ := hmem p hp
          refine ⟨i, j, ⟨hi.1, ?_⟩, ⟨hj.1, ?_⟩, hpij⟩
          · have := hi.2
            split_ifs at this <;> omega
          · have := hj.2
            split_ifs at this <;> omega

/-- The number of plotted points when x is the major axis (dy ≤ dx): the error term stays where
every iteration takes an x step, so a + 1 points are plotted with a steps left in x. -/
theorem line_loop_count_x (dx dy sx sy x2 y2 : Int) (c : RGB) (hsx : sx = 1 ∨ sx = -1)
    (hmajor : dy ≤ dx) :
    ∀ (fuel : Nat) (img : Image) (x1 y1 err a b : Int) (r : Image × List (Int × Int)),
      LineInv dx dy sx sy x2 y2 x1 y1 err a b →
      ((a = 0 ∧ b = 0) ∨ (-dy < 2 * err ∧ 2 * err < 3 * dx - 2 * dy)) →
      Image.line_loop dx dy sx sy x2 y2 c fuel img x1 y1 err = some r →
      (r.2.length : Int) = a + 1 := by
  intro fuel
  induction fuel with
  | zero =>
    intro img x1 y1 err a b r _ _ h
    simp [Image.line_loop] at h
  | succ n ih =>
    intro img x1 y1 err a b r hinv hband h
    by_cases hend : x1 = x2 ∧ y1 = y2
    · rw [line_loop_succ_of_eq _ _ _ _ _ _ _ _ _ _ _ _ hend] at h
      cases h
      have hx := hinv.2.2.1
      have ha0 : a = 0 := by
        have h1 := hend.1
        rcases hsx with rfl | rfl <;> omega
      rw [ha0]
      rfl
    · rw [line_loop_succ_of_ne _ _ _ _ _ _ _ _ _ _ _ _ hend] at h
      simp only [Option.map_eq_some'] at h
      obtain ⟨r1, hr1, rfl⟩ := h
      obtain ⟨hinv1, -⟩ := line_step_inv dx dy sx sy x2 y2 x1 y1 err a b hinv hend
      have hJ : -dy < 2 * err ∧ 2 * err < 3 * dx - 2 * dy := by
        rcases hband with ⟨ha0, hb0⟩ | hJ
        · exfalso
          apply hend
          rw [hinv.2.2.1, hinv.2.2.2.1, ha0, hb0]
          simp
        · exact hJ
      have hdy : 0 ≤ dy := le_trans hinv.2.1.1 hinv.2.1.2
      have hxs : 2 * err > -dy := hJ.1
      simp only [if_pos hxs] at hinv1 hr1
      have hrec := ih _ _ _ _ _ _ r1 hinv1 (by
        right
        by_cases hys : 2 * err < dx
        · simp only [if_pos hys]
          constructor <;> omega
        · simp only [if_neg hys]
          constructor <;> omega) hr1
      simp only [List.length_cons]
      push_cast
      omega

/-- The number of plotted points when y is the major axis (dx ≤ dy): every iteration takes a y
step, so b + 1 points are plotted with b steps left in y. -/
theorem line_loop_count_y (dx dy sx sy x2 y2 : Int) (c : RGB) (hsy : sy = 1 ∨ sy = -1)
    (hmajor : dx ≤ dy) :
    ∀ (fuel : Nat) (img : Image) (x1 y1 err a b : Int) (r : Image × List (Int × Int)),
      LineInv dx dy sx sy x2 y2 x1 y1 err a b →
      ((a = 0 ∧ b = 0) ∨ (2 * dx - 3 * dy < 2 * err ∧ 2 * err < dx)) →
      Image.line_loop dx dy sx sy x2 y2 c fuel img x1 y1 err = some r →
      (r.2.length : Int) = b + 1 := by
  intro fuel
  induction fuel with
  | zero =>
    intro img x1 y1 err a b r _ _ h
    simp [Image.line_loop] at h
  | succ n ih =>
    intro img x1 y1 err a b r hinv hband h
    by_cases hend : x1 = x2 ∧ y1 = y2
    · rw [line_loop_succ_of_eq _ _ _ _ _ _ _ _ _ _ _ _ hend] at h
      cases h
      have hy := hinv.2.2.2.1
      have hb0 : b = 0 := by
        have h1 := hend.2
        rcases hsy with rfl | rfl <;> omega
      rw [hb0]
      rfl
    · rw [line_loop_succ_of_ne _ _ _ _ _ _ _ _ _ _ _ _ hend] at h
      simp only [Option.map_eq_some'] at h
      obtain ⟨r1, hr1, rfl⟩ := h
      obtain ⟨hinv1, -⟩ := line_step_inv dx dy sx sy x2 y2 x1 y1 err a b hinv hend
      have hK : 2 * dx - 3 * dy < 2 * err ∧ 2 * err < dx := by
        rcases hband with ⟨ha0, hb0⟩ | hK
        · exfalso
          apply hend
          rw [hinv.2.2.1, hinv.2.2.2.1, ha0, hb0]
          simp
        · exact hK
      have hdx : 0 ≤ dx := le_trans hinv.1.1 hinv.1.2
      have hys : 2 * err < dx := hK.2
      simp only [if_pos hys] at hinv1 hr1
      have hrec := ih _ _ _ _ _ _ r1 hinv1 (by
        right
        by_cases hxs : 2 * err > -dy
        · simp only [if_pos hxs]
          constructor <;> omega
        · simp only [if_neg hxs]
          constructor <;> omega) hr1
      simp only [List.length_cons]
      push_cast
      omega

/-- C20: Image.line calls set on exactly max(|x2 - x1|, |y2 - y1|) + 1 points (the returned image
is the result of these calls, in order); every one of them lies in the rectangle spanned by the
two endpoints; and each point after the first differs from its predecessor by at most 1 in x
and at most 1 in y and is not equal to it. -/
theorem C20_line_points (img : Image) (x1 y1 x2 y2 : Int) (c : RGB) :
    ∃ (img1 : Image) (pts : List (Int × Int)),
      (∀ k : Nat,
        Image.line ((x2 - x1).natAbs + (y2 - y1).natAbs + 1 + k) img x1 y1 x2 y2 c
          = some (img1, pts))
      ∧ img1 = pts.foldl (fun im p => im.set p.1 p.2 c) img
      ∧ pts.length = max (x2 - x1).natAbs (y2 - y1).natAbs + 1
      ∧ (∀ p ∈ pts, (min x1 x2 ≤ p.1 ∧ p.1 ≤ max x1 x2) ∧ (min y1 y2 ≤ p.2 ∧ p.2 ≤ max y1 y2))
      ∧ List.Chain' unit_step pts := by
  obtain ⟨img1, pts, hrun, -, -, -, -, -⟩ := line_terminates img x1 y1 x2 y2 c
  have hrun0 := hrun 0
  unfold Image.line at hrun0
  simp only [] at hrun0
  have hinit := line_init_invariant x1 y1 x2 y2
  have hsx : (if x1 < x2 then (1 : Int) else -1) = 1 ∨ (if x1 < x2 then (1 : Int) else -1) = -1 := by
    split_ifs <;> simp
  have hsy : (if y1 < y2 then (1 : Int) else -1) = 1 ∨ (if y1 < y2 then (1 : Int) else -1) = -1 := by
    split_ifs <;> simp
  have hinv : LineInv ((x2 - x1).natAbs : Int) ((y2 - y1).natAbs : Int)
      (if x1 < x2 then 1 else -1) (if y1 < y2 then 1 else -1) x2 y2 x1 y1
      (((x2 - x1).natAbs : Int) - ((y2 - y1).natAbs : Int))
      ((x2 - x1).natAbs : Int) ((y2 - y1).natAbs : Int) :=
    ⟨⟨by omega, le_refl _⟩, ⟨by omega, le_refl _⟩, hinit.1, hinit.2, by ring⟩
  obtain ⟨-, hchain, hmem⟩ := line_loop_trace _ _ _ _ x2 y2 c hsx hsy _ img x1 y1 _ _ _
    (img1, pts) hinv hrun0
  refine ⟨img1, pts, hrun, ?_, ?_, ?_, hchain⟩
  · exact line_loop_image _ _ _ _ _ _ _ _ _ _ _ _ (img1, pts) hrun0
  · by_cases hmajor : ((y2 - y1).natAbs : Int) ≤ ((x2 - x1).natAbs : Int)
    · have hcount := line_loop_count_x _ _ _ _ x2 y2 c hsx hmajor _ img x1 y1 _ _ _
        (img1, pts) hinv (by omega) hrun0
      simp only [] at hcount
      omega
    · have hcount := line_loop_count_y _ _ _ _ x2 y2 c hsy (by omega) _ img x1 y1 _ _ _
        (img1, pts) hinv (by omega) hrun0
      simp only [] at hcount
      omega
  · intro p hp
    obtain ⟨i, j, hi, hj, rfl⟩ := hmem p hp
    simp only []
    refine ⟨⟨?_, ?_⟩, ?_, ?_⟩ <;> split_ifs <;> omega

end LSystem
